import Mathlib

/-!
# Verification of the d20 evaluation core (`d20/models.py`)

A shallow embedding of the node model (arithmetic and set nodes), the
dice/die rolling primitives, and the operator/selector subsystem of the
d20 dice engine, together with proofs of the specified properties.

Modelling conventions:
* Numeric values are rationals (`ℚ`): dice rolls are integers, and the
  only non-integer producer is true division `/`, which is exact on `ℚ`.
* Python's in-place mutation becomes functional update: every mutator
  returns the updated node.
* Randomness (`random.randrange`) is modelled by an explicit entropy
  stream: a list of naturals consumed one per roll, reduced modulo the
  die size.  This captures exactly the guarantee used by the spec
  (every sample lies in `[0, size)`).
* Python exceptions become `Except RollErr`; `RollValueError` carries
  its message string, and out-of-range indexing (`values[-1]` on an
  empty list, `sels[-1]` on an empty selector list) is `indexError`.
* Python object identity inside a container is modelled by the index of
  the member in the container's `set` list; `set` objects of members
  become `Finset ℕ` of such indices.
* The fields `annotation` (on `Number`), `comment` (on `Expression`)
  and `operations` (on `Set`/`Dice`/`Parenthetical`) are never read by
  any method of the core itself (they are stored for the external
  parser/evaluator/renderer), so they are omitted from the embedding.
* The unbounded `while` loops of the `rr` and `e` operators take an
  explicit fuel parameter; exhausting the fuel returns `none`, which
  models the (documented) possible nontermination.
-/

namespace D20

/-- Error taxonomy: `RollValueError msg` (the single error class of the
core, carrying its message) and `indexError` for Python's `IndexError`
on out-of-range `[-1]` indexing of an empty list. -/
inductive RollErr where
  | rollValue (msg : String)
  | indexError
deriving DecidableEq, Repr

/-- `UnOp.UNARY_OPS` keys: `+` and `-`. -/
inductive UnaryOp where
  | pos
  | neg
deriving DecidableEq, Repr

/-- `BinOp.BINARY_OPS` keys. -/
inductive BinaryOp where
  | add | sub | mul | div | floordiv | mod
  | lt | gt | eq | ge | le | ne
deriving DecidableEq, Repr

/-- Selector categories: `"l"`, `"h"`, `"<"`, `">"`; a selector with no
category (Python `None`) is represented by `Option.none` at use sites. -/
inductive SelCat where
  | low   -- "l"
  | high  -- "h"
  | less  -- "<"
  | more  -- ">"
deriving DecidableEq, Repr

/-- `SetOperator.OPERATIONS = {"k", "p", "rr", "ro", "ra", "e", "mi", "ma"}`. -/
inductive OpCode where
  | k | p | rr | ro | ra | e | mi | ma
deriving DecidableEq, Repr

/-- `SetSelector`: a category (or none, the plain equality selector) and
a numeric parameter. -/
structure SetSelector where
  cat : Option SelCat
  num : Int
deriving DecidableEq, Repr

/-- `SetOperator`: an operation code and its list of selectors. -/
structure SetOperator where
  op : OpCode
  sels : List SetSelector
deriving DecidableEq, Repr

/-- The `Number` node hierarchy of `models.py` as one inductive type.
Every constructor carries the mutable `kept` flag of the `Number` base
class (initially `true`).  Constructor ↔ class correspondence:
`expression` ↔ `Expression` (its `comment` is never read by the core),
`literal` ↔ `Literal` (`values` is the append-only history, last =
current; `exploded` the marker), `unOp` ↔ `UnOp`, `binOp` ↔ `BinOp`,
`parenthetical` ↔ `Parenthetical`, `setNode` ↔ `Set`, `dice` ↔ `Dice`
(`num` requested count, `size` face count, `values` a list of `die`
nodes, `ctx` whether a roll-count context is attached), `die` ↔ `Die`
(`values` the `Literal` history across rerolls, `ctx` as for `dice`). -/
inductive Num where
  | expression (kept : Bool) (roll : Num)
  | literal (kept : Bool) (values : List ℚ) (exploded : Bool)
  | unOp (kept : Bool) (op : UnaryOp) (value : Num)
  | binOp (kept : Bool) (op : BinaryOp) (left right : Num)
  | parenthetical (kept : Bool) (value : Num)
  | setNode (kept : Bool) (values : List Num)
  | dice (kept : Bool) (num size : ℕ) (values : List Num) (ctx : Bool)
  | die (kept : Bool) (size : ℕ) (values : List Num) (ctx : Bool)

namespace Num

/-- The `kept` attribute of the `Number` base class. -/
def kept : Num → Bool
  | .expression k _ => k
  | .literal k _ _ => k
  | .unOp k _ _ => k
  | .binOp k _ _ _ => k
  | .parenthetical k _ => k
  | .setNode k _ => k
  | .dice k _ _ _ _ => k
  | .die k _ _ _ => k

/-- `Number.drop()`: sets `kept = False` on the node itself. -/
def drop : Num → Num
  | .expression _ roll => .expression false roll
  | .literal _ values exploded => .literal false values exploded
  | .unOp _ op value => .unOp false op value
  | .binOp _ op left right => .binOp false op left right
  | .parenthetical _ value => .parenthetical false value
  | .setNode _ values => .setNode false values
  | .dice _ num size values ctx => .dice false num size values ctx
  | .die _ size values ctx => .die false size values ctx

/-- The `set` property: `Expression.set = roll.set`; `Literal`, `UnOp`
and `BinOp` are their own singleton set; `Parenthetical.set =
value.set`; `Set.set = values`; `Dice` inherits `Set.set`;
`Die.set = [values[-1]]`. -/
def setMembers : Num → List Num
  | .expression _ roll => roll.setMembers
  | .literal k values exploded => [.literal k values exploded]
  | .unOp k op value => [.unOp k op value]
  | .binOp k op left right => [.binOp k op left right]
  | .parenthetical _ value => value.setMembers
  | .setNode _ values => values
  | .dice _ _ _ values _ => values
  | .die _ _ values _ => (values.getLast?).toList

/-- The `children` property: structural sub-nodes for tree traversal.
`Dice.children` and `Die.children` are both `[]`. -/
def children : Num → List Num
  | .expression _ roll => [roll]
  | .literal _ _ _ => []
  | .unOp _ _ value => [value]
  | .binOp _ _ left right => [left, right]
  | .parenthetical _ value => value.children
  | .setNode _ values => values
  | .dice _ _ _ _ _ => []
  | .die _ _ _ _ => []

/-- `Literal.update(value)`: appends to the value history (identity on
any non-`Literal` node, which has no such method). -/
def update (n : Num) (v : ℚ) : Num :=
  match n with
  | .literal k values exploded => .literal k (values ++ [v]) exploded
  | n => n

/-- `Literal.explode()`: sets the `exploded` marker. -/
def explodeMark : Num → Num
  | .literal k values _ => .literal k values true
  | n => n

/-- `if self.values: f(self.values[-1])` — applies `f` to the last
element of a (possibly empty) list, as `Die.reroll`, `Die.explode`
and `Die.force_value` all do. -/
def modifyLastWith (f : Num → Num) (l : List Num) : List Num :=
  match l.getLast? with
  | some a => l.dropLast ++ [f a]
  | none => l

/-- `Die.explode()`: marks the current (last) `Literal` as exploded;
it does not itself roll. -/
def dieExplode : Num → Num
  | .die k size values ctx => .die k size (modifyLastWith explodeMark values) ctx
  | n => n

/-- `Die.force_value(new_value)`: appends `new_value` to the current
(last) `Literal`'s history without dropping the prior value. -/
def forceValue (n : Num) (v : ℚ) : Num :=
  match n with
  | .die k size values ctx => .die k size (modifyLastWith (update · v) values) ctx
  | n => n

end Num

/-- The evaluation-wide random/context state: `entropy` is the stream
of raw random values (`randrange size` consumes one, reduced mod the
size), `counter` is the roll-count context's tally. -/
structure RollState where
  entropy : List ℕ
  counter : ℕ
deriving DecidableEq, Repr

namespace RollState

/-- `RollContext.count_roll()`: count one physical die roll. -/
def countRoll (s : RollState) : RollState :=
  { s with counter := s.counter + 1 }

/-- `random.randrange(n)`: consume one entropy value, reduced mod `n`
(so the result lies in `[0, n)` whenever `n ≥ 1`). -/
def randrange (s : RollState) (n : ℕ) : ℕ × RollState :=
  (s.entropy.headD 0 % n, { s with entropy := s.entropy.tail })

end RollState

namespace Num

/-- `Die._add_roll()`: fails if `size < 1`; otherwise notifies the
roll-count context (if attached), samples `randrange(size) + 1` and
appends it as a new `Literal`.  Identity on non-`Die` nodes. -/
def addRoll (n : Num) (s : RollState) : Except RollErr (Num × RollState) :=
  match n with
  | .die k size values ctx =>
      if size < 1 then .error (.rollValue "Cannot roll a 0-sided die.")
      else
        let s1 := if ctx then s.countRoll else s
        let (r, s2) := s1.randrange size
        .ok (.die k size (values ++ [.literal true [(r : ℚ) + 1] false]) ctx, s2)
  | n => .ok (n, s)

/-- `Die.new(size, context)`: a fresh `Die` with one immediate roll. -/
def dieNew (size : ℕ) (ctx : Bool) (s : RollState) : Except RollErr (Num × RollState) :=
  addRoll (.die true size [] ctx) s

/-- `Die.reroll()`: drops the current (last) `Literal`, then performs
another roll — the history grows and only the last entry is live. -/
def reroll (n : Num) (s : RollState) : Except RollErr (Num × RollState) :=
  match n with
  | .die k size values ctx => addRoll (.die k size (modifyLastWith drop values) ctx) s
  | n => .ok (n, s)

/-- `Dice.roll_another()`: appends one freshly-rolled `Die` with the
pool's face count and context. -/
def rollAnother (n : Num) (s : RollState) : Except RollErr (Num × RollState) :=
  match n with
  | .dice k num size values ctx => do
      let (d, s1) ← dieNew size ctx s
      .ok (.dice k num size (values ++ [d]) ctx, s1)
  | n => .ok (n, s)

end Num

/-- The pure value of each entry of `BinOp.BINARY_OPS` (the behaviour
away from the `ZeroDivisionError` case): `/` is true division, `//` is
floor division, `%` is modulo (`l - r * ⌊l / r⌋`, Python semantics),
comparisons yield `0`/`1`. -/
def BinaryOp.fn : BinaryOp → ℚ → ℚ → ℚ
  | .add, l, r => l + r
  | .sub, l, r => l - r
  | .mul, l, r => l * r
  | .div, l, r => l / r
  | .floordiv, l, r => (⌊l / r⌋ : ℚ)
  | .mod, l, r => l - r * (⌊l / r⌋ : ℚ)
  | .lt, l, r => if l < r then 1 else 0
  | .gt, l, r => if l > r then 1 else 0
  | .eq, l, r => if l = r then 1 else 0
  | .ge, l, r => if l ≥ r then 1 else 0
  | .le, l, r => if l ≤ r then 1 else 0
  | .ne, l, r => if l ≠ r then 1 else 0

/-- Whether an op raises `ZeroDivisionError` on a zero right operand:
`/`, `//` and `%`. -/
def BinaryOp.divLike : BinaryOp → Bool
  | .div | .floordiv | .mod => true
  | _ => false

/-- `BinOp.BINARY_OPS[op](l, r)` together with `BinOp.number`'s
`except ZeroDivisionError` handler: division, floor division and modulo
by zero become the invalid-operation (`RollValueError`) error. -/
def BinaryOp.apply (op : BinaryOp) (l r : ℚ) : Except RollErr ℚ :=
  if op.divLike ∧ r = 0 then .error (.rollValue "Cannot divide by zero.")
  else .ok (op.fn l r)

/-- `UnOp.UNARY_OPS[op](v)`. -/
def UnaryOp.apply : UnaryOp → ℚ → ℚ
  | .pos, v => v
  | .neg, v => -v

mutual

/-- The `number` property.  `Expression.number = roll.number`;
`Literal.number = values[-1]`; `UnOp.number = op(value.total)`;
`BinOp.number = op(left.total, right.total)` with the zero-division
handler; `Parenthetical.number = value.number`; `Set`/`Dice` use the
base-class `sum(n.number for n in self.keptset)`;
`Die.number = values[-1].total`. -/
def Num.number : Num → Except RollErr ℚ
  | .expression _ roll => roll.number
  | .literal _ values _ =>
      match values.getLast? with
      | some v => .ok v
      | none => .error .indexError
  | .unOp _ op value => do
      let v ← value.total
      .ok (op.apply v)
  | .binOp _ op left right => do
      let l ← left.total
      let r ← right.total
      op.apply l r
  | .parenthetical _ value => value.number
  | .setNode _ values => Num.sumKeptNumbers values
  | .dice _ _ _ values _ => Num.sumKeptNumbers values
  | .die _ _ values _ => Num.lastTotal values
termination_by n => (sizeOf n, 1)
decreasing_by
  all_goals simp_wf
  all_goals first
    | exact Prod.Lex.right _ (by omega)
    | exact Prod.Lex.left _ _ (by omega)

/-- The `total` property: `number` if `kept` else `0` — except
`Parenthetical`, whose total is `value.total` if `kept` else `0`. -/
def Num.total (n : Num) : Except RollErr ℚ :=
  match n with
  | .parenthetical k value => if k then value.total else .ok 0
  | n => if n.kept then n.number else .ok 0
termination_by (sizeOf n, 2)
decreasing_by
  all_goals simp_wf
  all_goals first
    | exact Prod.Lex.right _ (by omega)
    | exact Prod.Lex.left _ _ (by omega)

/-- `sum(n.number for n in self.keptset)` over a member list, summing
left to right over the members whose `kept` flag is set. -/
def Num.sumKeptNumbers : List Num → Except RollErr ℚ
  | [] => .ok 0
  | n :: rest =>
      if n.kept then do
        let v ← n.number
        let vs ← Num.sumKeptNumbers rest
        .ok (v + vs)
      else Num.sumKeptNumbers rest
termination_by l => (sizeOf l, 0)
decreasing_by
  all_goals simp_wf
  all_goals first
    | exact Prod.Lex.right _ (by omega)
    | exact Prod.Lex.left _ _ (by omega)

/-- `self.values[-1].total` for `Die.number`: the total of the last
element of the `Literal` history (`IndexError` on an empty history,
which never arises for a constructed `Die`). -/
def Num.lastTotal : List Num → Except RollErr ℚ
  | [] => .error .indexError
  | [v] => v.total
  | _ :: v :: rest => Num.lastTotal (v :: rest)
termination_by l => (sizeOf l, 0)
decreasing_by
  all_goals simp_wf
  all_goals first
    | exact Prod.Lex.right _ (by omega)
    | exact Prod.Lex.left _ _ (by omega)

end

/-- Whether a node is a `Parenthetical` (the one class that overrides
`total`). -/
def Num.isParenthetical : Num → Bool
  | .parenthetical _ _ => true
  | _ => false

/-- `SetSelector.__str__` category codes. -/
def SelCat.code : SelCat → String
  | .low => "l"
  | .high => "h"
  | .less => "<"
  | .more => ">"

/-- `SetSelector.__str__`: `f"{self.cat}{self.num}"` when the category
is present (non-`None`; the category strings are never empty, so Python
truthiness coincides with presence), else `str(self.num)`. -/
def SetSelector.str (sel : SetSelector) : String :=
  match sel.cat with
  | some c => c.code ++ toString sel.num
  | none => toString sel.num

/-- The operation codes of `SetOperator.OPERATIONS`. -/
def OpCode.code : OpCode → String
  | .k => "k"
  | .p => "p"
  | .rr => "rr"
  | .ro => "ro"
  | .ra => "ra"
  | .e => "e"
  | .mi => "mi"
  | .ma => "ma"

/-- `SetOperator.__str__`:
`"".join([f"{self.op}{str(sel)}" for sel in self.sels])`. -/
def SetOperator.str (o : SetOperator) : String :=
  String.join (o.sels.map (fun sel => o.op.code ++ sel.str))

namespace Num

/-- Python's in-place mutation of the `i`-th member of `target.set`
(object identity becomes the index `i`): the update is forwarded
through the nodes whose `set` delegates (`Expression`, `Parenthetical`),
applied in place in a `Set`/`Dice` member list, applied to the last
`Literal` for a `Die` (whose single set member it is), and applied to
the node itself for the self-membered leaves. -/
def modifyMember (n : Num) (i : ℕ) (f : Num → Num) : Num :=
  match n with
  | .expression k roll => .expression k (roll.modifyMember i f)
  | .parenthetical k value => .parenthetical k (value.modifyMember i f)
  | .setNode k values => .setNode k (values.modify f i)
  | .dice k num size values ctx => .dice k num size (values.modify f i) ctx
  | .die k size values ctx => if i = 0 then .die k size (modifyLastWith f values) ctx else n
  | n => if i = 0 then f n else n

/-- The `i`-th member of `target.set`. -/
def member (t : Num) (i : ℕ) : Option Num :=
  t.setMembers.get? i

/-- The `number` of the `i`-th member of `target.set`, as read by the
`mi`/`ma` single passes. -/
def memberNumber (t : Num) (i : ℕ) : Except RollErr ℚ :=
  match t.setMembers.get? i with
  | some m => m.number
  | none => .error .indexError

/-- Worker for `keptIdx`: indices (into the `set` list, starting at the
given offset) of the members whose `kept` flag is set. -/
def keptIdxGo : ℕ → List Num → List ℕ
  | _, [] => []
  | i, n :: rest =>
      if n.kept then i :: keptIdxGo (i + 1) rest else keptIdxGo (i + 1) rest

/-- `target.keptset` as the list of indices of kept members. -/
def keptIdx (t : Num) : List ℕ :=
  keptIdxGo 0 t.setMembers

/-- Worker for `keptTotals`: the `(index, total)` pairs of the kept
members, evaluated left to right (errors propagate from the first
failing member, as in Python). -/
def keptTotalsGo : ℕ → List Num → Except RollErr (List (ℕ × ℚ))
  | _, [] => .ok []
  | i, n :: rest =>
      if n.kept then do
        let v ← n.total
        let vs ← keptTotalsGo (i + 1) rest
        .ok ((i, v) :: vs)
      else keptTotalsGo (i + 1) rest

/-- `target.keptset` paired with each member's `total`, which is what
every selector predicate consumes. -/
def keptTotals (t : Num) : Except RollErr (List (ℕ × ℚ)) :=
  keptTotalsGo 0 t.setMembers

end Num

/-- One step of the stable insertion sort: place `a` before the first
element `b` of the (sorted) list for which `before b a` fails.  With
`before b a := b.2 < a.2` this yields Python's stable ascending
`sorted(..., key=total)`; with the reversed strict test it yields
`sorted(..., key=total, reverse=True)` (which reverses comparisons, not
the output, so ties keep their original relative order either way). -/
def insertPair (before : (ℕ × ℚ) → (ℕ × ℚ) → Bool) (a : ℕ × ℚ) :
    List (ℕ × ℚ) → List (ℕ × ℚ)
  | [] => [a]
  | b :: bs => if before b a then b :: insertPair before a bs else a :: b :: bs

/-- Stable insertion sort of the kept `(index, total)` pairs. -/
def sortPairs (before : (ℕ × ℚ) → (ℕ × ℚ) → Bool) : List (ℕ × ℚ) → List (ℕ × ℚ)
  | [] => []
  | a :: rest => insertPair before a (sortPairs before rest)

namespace SetSelector

/-- `lowestn`: `sorted(target.keptset, key=lambda n: n.total)[:self.num]`
(the parser only produces nonnegative `l`/`h` parameters, so the slice
is `take`). -/
def lowestn (sel : SetSelector) (L : List (ℕ × ℚ)) : List (ℕ × ℚ) :=
  (sortPairs (fun b a => b.2 < a.2) L).take sel.num.toNat

/-- `highestn`: the same sort with `reverse=True`. -/
def highestn (sel : SetSelector) (L : List (ℕ × ℚ)) : List (ℕ × ℚ) :=
  (sortPairs (fun b a => a.2 < b.2) L).take sel.num.toNat

/-- `lessthan`: kept members with total strictly below the parameter. -/
def lessthan (sel : SetSelector) (L : List (ℕ × ℚ)) : List (ℕ × ℚ) :=
  L.filter (fun e => e.2 < (sel.num : ℚ))

/-- `morethan`: kept members with total strictly above the parameter. -/
def morethan (sel : SetSelector) (L : List (ℕ × ℚ)) : List (ℕ × ℚ) :=
  L.filter (fun e => (sel.num : ℚ) < e.2)

/-- `literal` (the `None` category): kept members with total exactly
the parameter. -/
def literalSel (sel : SetSelector) (L : List (ℕ × ℚ)) : List (ℕ × ℚ) :=
  L.filter (fun e => e.2 = (sel.num : ℚ))

/-- The category dispatch of `SetSelector.select`, applied to the kept
`(index, total)` pairs. -/
def dispatch (sel : SetSelector) (L : List (ℕ × ℚ)) : List (ℕ × ℚ) :=
  match sel.cat with
  | some .low => sel.lowestn L
  | some .high => sel.highestn L
  | some .less => sel.lessthan L
  | some .more => sel.morethan L
  | none => sel.literalSel L

/-- `SetSelector.select(target)`: the chosen members as a `set` —
modelled as the `Finset` of their indices in `target.set`. -/
def select (sel : SetSelector) (t : Num) : Except RollErr (Finset ℕ) := do
  let L ← t.keptTotals
  .ok ((sel.dispatch L).map Prod.fst).toFinset

end SetSelector

namespace SetOperator

/-- Worker for `SetOperator.select`: the running union over the
selector list, each selector queried left to right. -/
def selectGo (t : Num) : List SetSelector → Except RollErr (Finset ℕ)
  | [] => .ok ∅
  | sel :: rest => do
      let s ← sel.select t
      let srest ← selectGo t rest
      .ok (s ∪ srest)

/-- `SetOperator.select(target)`: the union of every selector's
selection. -/
def select (o : SetOperator) (t : Num) : Except RollErr (Finset ℕ) :=
  selectGo t o.sels

/-- Worker for `keep`: iterate over the (pre-computed) kept member
indices; `self.select(target)` is re-evaluated on each iteration, as in
the source, and the member is dropped when not selected. -/
def keepGo (o : SetOperator) : List ℕ → Num → Except RollErr Num
  | [], t => .ok t
  | i :: rest, t => do
      let s ← o.select t
      keepGo o rest (if i ∈ s then t else t.modifyMember i Num.drop)

/-- `keep`: drop every member of `target.keptset` that is not
selected. -/
def keep (o : SetOperator) (t : Num) : Except RollErr Num :=
  keepGo o t.keptIdx t

/-- Drop each of a list of member indices in turn. -/
def dropAll : List ℕ → Num → Num
  | [], t => t
  | i :: rest, t => dropAll rest (t.modifyMember i Num.drop)

/-- `drop` (op code `p`): drop every member of the one-shot
selection (a Python `set`, iterated here in ascending index order —
`drop` is order-insensitive). -/
def dropMembers (o : SetOperator) (t : Num) : Except RollErr Num := do
  let s ← o.select t
  .ok (dropAll (s.sort (· ≤ ·)) t)

/-- `die.reroll()` applied to the `i`-th member of a `Dice` pool (the
`rr`/`ro` operators are dice-only; on any other target shape the
source would fail on a missing attribute, which no claim exercises —
modelled as the identity). -/
def rerollMember (t : Num) (i : ℕ) (s : RollState) : Except RollErr (Num × RollState) :=
  match t with
  | .dice k num size values ctx =>
      match values.get? i with
      | some d => do
          let (d2, s2) ← d.reroll s
          .ok (.dice k num size (values.set i d2) ctx, s2)
      | none => .ok (t, s)
  | t => .ok (t, s)

/-- One pass of `rr`/`ro`: reroll each die of the current selection
(a Python `set`, iterated in ascending index order). -/
def rerollEach : List ℕ → Num → RollState → Except RollErr (Num × RollState)
  | [], t, s => .ok (t, s)
  | i :: rest, t, s => do
      let (t2, s2) ← rerollMember t i s
      rerollEach rest t2 s2

/-- `reroll` (op code `rr`): iteratively select-and-reroll, re-querying
the selection after every pass, until a pass selects the empty set.
The fuel bounds the number of passes; `none` models nontermination. -/
def reroll (o : SetOperator) : ℕ → Num → RollState → Except RollErr (Option (Num × RollState))
  | 0, _, _ => .ok none
  | fuel + 1, t, s => do
      let sel ← o.select t
      if sel = ∅ then .ok (some (t, s))
      else do
        let (t2, s2) ← rerollEach (sel.sort (· ≤ ·)) t s
        reroll o fuel t2 s2

/-- `reroll_once` (op code `ro`): one single pass. -/
def rerollOnce (o : SetOperator) (t : Num) (s : RollState) : Except RollErr (Num × RollState) := do
  let sel ← o.select t
  rerollEach (sel.sort (· ≤ ·)) t s

/-- One pass of `e`/`ra`: `die.explode()` then `target.roll_another()`
for each die of the given selection. -/
def explodeEach : List ℕ → Num → RollState → Except RollErr (Num × RollState)
  | [], t, s => .ok (t, s)
  | i :: rest, t, s => do
      let (t2, s2) ← (t.modifyMember i Num.dieExplode).rollAnother s
      explodeEach rest t2 s2

/-- `explode` (op code `e`): iteratively explode-and-append; each pass
works on the current selection minus the dice already exploded by a
prior pass of this same call (identity = index; `roll_another` appends,
so indices are stable), and the loop ends when that difference is
empty.  The fuel bounds the number of passes. -/
def explode (o : SetOperator) : ℕ → Finset ℕ → Num → RollState → Except RollErr (Option (Num × RollState))
  | 0, _, _, _ => .ok none
  | fuel + 1, already, t, s => do
      let sel ← o.select t
      let todo := sel \ already
      if todo = ∅ then .ok (some (t, s))
      else do
        let (t2, s2) ← explodeEach (todo.sort (· ≤ ·)) t s
        explode o fuel (already ∪ todo) t2 s2

/-- `explode_once` (op code `ra`): one single pass. -/
def explodeOnce (o : SetOperator) (t : Num) (s : RollState) : Except RollErr (Num × RollState) := do
  let sel ← o.select t
  explodeEach (sel.sort (· ≤ ·)) t s

/-- The single pass of `minimum`: for every member of the pre-computed
`target.keptset`, force its value to the threshold when its `number`
is below it. -/
def clampMinGo (thr : ℚ) : List ℕ → Num → Except RollErr Num
  | [], t => .ok t
  | i :: rest, t => do
      let v ← t.memberNumber i
      clampMinGo thr rest (if v < thr then t.modifyMember i (Num.forceValue · thr) else t)

/-- `minimum` (op code `mi`): requires the last selector to be a plain
equality selector, else fails with the invalid-selector error; then
clamps every kept member's value up to the threshold. -/
def minimum (o : SetOperator) (t : Num) : Except RollErr Num :=
  match o.sels.getLast? with
  | none => .error .indexError
  | some selector =>
      match selector.cat with
      | some _ => .error (.rollValue (selector.str ++ " is not a valid selector for minimums."))
      | none => clampMinGo (selector.num : ℚ) t.keptIdx t

/-- The single pass of `maximum`: symmetrical to `clampMinGo`. -/
def clampMaxGo (thr : ℚ) : List ℕ → Num → Except RollErr Num
  | [], t => .ok t
  | i :: rest, t => do
      let v ← t.memberNumber i
      clampMaxGo thr rest (if thr < v then t.modifyMember i (Num.forceValue · thr) else t)

/-- `maximum` (op code `ma`): symmetrical to `minimum`. -/
def maximum (o : SetOperator) (t : Num) : Except RollErr Num :=
  match o.sels.getLast? with
  | none => .error .indexError
  | some selector =>
      match selector.cat with
      | some _ => .error (.rollValue (selector.str ++ " is not a valid selector for maximums."))
      | none => clampMaxGo (selector.num : ℚ) t.keptIdx t

/-- `SetOperator.operate(target)`: dispatch on the op code.  The
single-pass operations always terminate and wrap their result in
`some`; `rr` and `e` consume fuel. -/
def operate (o : SetOperator) (fuel : ℕ) (t : Num) (s : RollState) :
    Except RollErr (Option (Num × RollState)) :=
  match o.op with
  | .k => do let t2 ← o.keep t; .ok (some (t2, s))
  | .p => do let t2 ← o.dropMembers t; .ok (some (t2, s))
  | .rr => o.reroll fuel t s
  | .ro => do let r ← o.rerollOnce t s; .ok (some r)
  | .ra => do let r ← o.explodeOnce t s; .ok (some r)
  | .e => o.explode fuel ∅ t s
  | .mi => do let t2 ← o.minimum t; .ok (some (t2, s))
  | .ma => do let t2 ← o.maximum t; .ok (some (t2, s))

end SetOperator

/-- The pure content of `SetOperator.select` over an already-computed
kept-totals list: the union, selector by selector, of each selector's
dispatch. -/
def selectLUnion (sels : List SetSelector) (L : List (ℕ × ℚ)) : Finset ℕ :=
  sels.foldr (fun sel acc => ((sel.dispatch L).map Prod.fst).toFinset ∪ acc) ∅

/-- `SetOperator.select` as a pure function of the kept totals. -/
def SetOperator.selectL (o : SetOperator) (L : List (ℕ × ℚ)) : Finset ℕ :=
  selectLUnion o.sels L

/-! ## Theorems -/

/-- Computation rule for `Except` bind on a success, used throughout to
evaluate the monadic embedding. -/
@[simp] theorem okBind {ε : Type u} {α β : Type v} (a : α) (f : α → Except ε β) :
    (Except.ok a : Except ε α) >>= f = f a := rfl

/-- Computation rule for `Except` bind on an error. -/
@[simp] theorem errorBind {ε : Type u} {α β : Type v} (e : ε) (f : α → Except ε β) :
    (Except.error e : Except ε α) >>= f = .error e := rfl

/-- `pure` on `Except` is `Except.ok`. -/
@[simp] theorem purePure {ε : Type u} {α : Type v} (a : α) :
    (pure a : Except ε α) = .ok a := rfl

/-- **C10**: `Dice.children` and `Die.children` always return the empty
list, unlike `Set.children`, which equals its values — while a pool's
`Die` members remain reachable via `set` — so a structural traversal
via `children` never descends into a dice pool's individual dice. -/
theorem dice_die_children_empty :
    (∀ (k : Bool) (n sz : ℕ) (vs : List Num) (c : Bool),
        (Num.dice k n sz vs c).children = []) ∧
    (∀ (k : Bool) (sz : ℕ) (vs : List Num) (c : Bool),
        (Num.die k sz vs c).children = []) ∧
    (∀ (k : Bool) (vs : List Num), (Num.setNode k vs).children = vs) ∧
    (∀ (k : Bool) (n sz : ℕ) (vs : List Num) (c : Bool),
        (Num.dice k n sz vs c).setMembers = vs) :=
  ⟨fun _ _ _ _ _ => rfl, fun _ _ _ _ => rfl, fun _ _ => rfl, fun _ _ _ _ _ => rfl⟩

/-- **C9**: the canonical text form of a `SetSelector` is its category
code (if any) concatenated with its numeric parameter (high-2 → `"h2"`,
equality-6 → `"6"`), and that of a `SetOperator` is the op code
followed by each selector's form; `(keep, [highest-2])` renders exactly
as `"kh2"`. -/
theorem selector_operator_str_spec :
    (∀ (c : SelCat) (n : Int), SetSelector.str ⟨some c, n⟩ = c.code ++ toString n) ∧
    (∀ n : Int, SetSelector.str ⟨none, n⟩ = toString n) ∧
    (∀ (oc : OpCode) (sels : List SetSelector),
        SetOperator.str ⟨oc, sels⟩ = String.join (sels.map (fun sel => oc.code ++ sel.str))) ∧
    SetSelector.str ⟨some .high, 2⟩ = "h2" ∧
    SetSelector.str ⟨none, 6⟩ = "6" ∧
    SetOperator.str ⟨.k, [⟨some .high, 2⟩]⟩ = "kh2" := by
  refine ⟨fun _ _ => rfl, fun _ => rfl, fun _ _ => rfl, ?_, ?_, ?_⟩ <;> rfl

/-- **C1**: for every node, `total` is `number` when kept and `0` when
not (`Parenthetical` computing from its child's total instead); after
`drop()` the total reads `0`, and no core mutation ever sets `kept`
back to `true`, so it remains `0`. -/
theorem total_drop_spec :
    (∀ n : Num, n.isParenthetical = false → n.kept = true → n.total = n.number) ∧
    (∀ n : Num, n.kept = false → n.total = .ok 0) ∧
    (∀ (k : Bool) (v : Num),
        (Num.parenthetical k v).total = if k then v.total else .ok 0) ∧
    (∀ n : Num, n.drop.kept = false) ∧
    (∀ n : Num, n.drop.total = .ok 0) ∧
    (∀ (n : Num) (v : ℚ), (n.update v).kept = n.kept) ∧
    (∀ n : Num, n.explodeMark.kept = n.kept) ∧
    (∀ n : Num, n.dieExplode.kept = n.kept) ∧
    (∀ (n : Num) (v : ℚ), (n.forceValue v).kept = n.kept) ∧
    (∀ (n : Num) (s : RollState) (r : Num × RollState),
        n.addRoll s = .ok r → r.1.kept = n.kept) ∧
    (∀ (n : Num) (s : RollState) (r : Num × RollState),
        n.reroll s = .ok r → r.1.kept = n.kept) ∧
    (∀ (n : Num) (s : RollState) (r : Num × RollState),
        n.rollAnother s = .ok r → r.1.kept = n.kept) ∧
    (∀ (t : Num) (i : ℕ) (f : Num → Num),
        (∀ m : Num, m.kept = false → (f m).kept = false) →
        t.kept = false → (t.modifyMember i f).kept = false) := by
  refine ⟨?_, ?_, ?_, ?_, ?_, ?_, ?_, ?_, ?_, ?_, ?_, ?_, ?_⟩
  · intro n hp hk
    cases n <;> simp_all [Num.total, Num.kept, Num.isParenthetical]
  · intro n hk
    cases n <;> simp_all [Num.total, Num.kept]
  · intro k v
    simp [Num.total]
  · intro n
    cases n <;> rfl
  · intro n
    cases n <;> simp [Num.drop, Num.total, Num.kept]
  · intro n v
    cases n <;> rfl
  · intro n
    cases n <;> rfl
  · intro n
    cases n <;> rfl
  · intro n v
    cases n <;> rfl
  · intro n s r h
    cases n <;> simp [Num.addRoll] at h <;> try (cases h; rfl)
    rename_i k size values c
    split at h
    · cases h
    · cases h; rfl
  · intro n s r h
    cases n <;> simp [Num.reroll] at h <;> try (cases h; rfl)
    rename_i k size values c
    simp [Num.addRoll] at h
    split at h
    · cases h
    · cases h; rfl
  · intro n s r h
    cases n <;> simp [Num.rollAnother] at h <;> try (cases h; rfl)
    rename_i k num size values c
    simp [Num.dieNew, Num.addRoll] at h
    split at h
    · cases h
    · cases h; rfl
  · intro t i f hf hk
    cases t with
    | expression k roll => simpa [Num.modifyMember, Num.kept] using hk
    | parenthetical k v => simpa [Num.modifyMember, Num.kept] using hk
    | setNode k vs => simpa [Num.modifyMember, Num.kept] using hk
    | dice k n sz vs c => simpa [Num.modifyMember, Num.kept] using hk
    | die k sz vs c =>
        simp only [Num.modifyMember]
        split <;> simpa [Num.kept] using hk
    | literal k vs e =>
        simp only [Num.modifyMember]
        split
        · exact hf _ hk
        · exact hk
    | unOp k op v =>
        simp only [Num.modifyMember]
        split
        · exact hf _ hk
        · exact hk
    | binOp k op l r =>
        simp only [Num.modifyMember]
        split
        · exact hf _ hk
        · exact hk

/-- Witness for **C1** at concrete inputs: a dropped literal totals 0;
a kept literal's total is its number; an `update` on the dropped
literal leaves it dropped. -/
theorem total_drop_spec_witness :
    (Num.literal false [3] false).total = .ok 0 ∧
    (Num.literal true [3] false).total = (Num.literal true [3] false).number ∧
    ((Num.literal false [3] false).update 5).kept = (Num.literal false [3] false).kept := by
  refine ⟨total_drop_spec.2.1 _ rfl, total_drop_spec.1 _ rfl rfl, total_drop_spec.2.2.2.2.2.1 _ 5⟩

/-- **C2**: `BinOp.number` fails with the invalid-operation error
exactly when the op is `/`, `//` or `%` and the right operand's total
is 0 (no infinity or NaN can be produced: values are exact rationals
and the zero-divisor case errors instead); otherwise it returns the op
applied to `left.total` and `right.total`, comparisons yielding 0/1. -/
theorem binOp_number_spec :
    ∀ (k : Bool) (op : BinaryOp) (l r : Num) (lv rv : ℚ),
      l.total = .ok lv → r.total = .ok rv →
      (op.divLike = true → rv = 0 →
          (Num.binOp k op l r).number = .error (.rollValue "Cannot divide by zero.")) ∧
      ((op.divLike = true → rv ≠ 0) →
          (Num.binOp k op l r).number = .ok (op.fn lv rv)) ∧
      (op = .lt ∨ op = .gt ∨ op = .eq ∨ op = .ge ∨ op = .le ∨ op = .ne →
          op.fn lv rv = 0 ∨ op.fn lv rv = 1) := by
  intro k op l r lv rv hl hr
  refine ⟨?_, ?_, ?_⟩
  · intro hd hz
    simp [Num.number, hl, hr, BinaryOp.apply, hd, hz]
  · intro hnz
    simp only [Num.number, hl, hr, okBind, BinaryOp.apply]
    split
    · rename_i hc
      exact absurd hc.2 (hnz hc.1)
    · rfl
  · rintro (rfl | rfl | rfl | rfl | rfl | rfl) <;> simp [BinaryOp.fn] <;>
      first
        | exact le_or_lt _ _
        | exact lt_or_le _ _
        | exact em _
        | exact (em _).symm

/-- Witness for **C2**: `6 / 0` fails with the zero-division error,
`7 // 2` evaluates to 3, and `6 < 0` yields 0 or 1. -/
theorem binOp_number_spec_witness :
    (Num.binOp true .div (Num.literal true [6] false) (Num.literal true [0] false)).number
        = .error (.rollValue "Cannot divide by zero.") ∧
    (Num.binOp true .floordiv (Num.literal true [7] false) (Num.literal true [2] false)).number
        = .ok (BinaryOp.floordiv.fn 7 2) ∧
    (BinaryOp.lt.fn 6 0 = 0 ∨ BinaryOp.lt.fn 6 0 = 1) := by
  have h6 : (Num.literal true [(6:ℚ)] false).total = .ok 6 := by
    simp [Num.total, Num.number, Num.kept]
  have h0 : (Num.literal true [(0:ℚ)] false).total = .ok 0 := by
    simp [Num.total, Num.number, Num.kept]
  have h7 : (Num.literal true [(7:ℚ)] false).total = .ok 7 := by
    simp [Num.total, Num.number, Num.kept]
  have h2 : (Num.literal true [(2:ℚ)] false).total = .ok 2 := by
    simp [Num.total, Num.number, Num.kept]
  exact ⟨(binOp_number_spec true .div _ _ 6 0 h6 h0).1 rfl rfl,
         (binOp_number_spec true .floordiv _ _ 7 2 h7 h2).2.1 (fun _ => by norm_num),
         (binOp_number_spec true .lt _ _ 6 0 h6 h0).2.2 (by tauto)⟩

/-- **C3**: `Die._add_roll` fails with the invalid-roll error when the
die's size is below 1; otherwise it bumps the attached roll-count
context (if any) and appends a fresh `Literal` whose value `v`
satisfies `1 ≤ v ≤ size`. -/
theorem addRoll_spec :
    ∀ (k : Bool) (size : ℕ) (values : List Num) (c : Bool) (s : RollState),
      (size < 1 →
        (Num.die k size values c).addRoll s =
          .error (.rollValue "Cannot roll a 0-sided die.")) ∧
      (1 ≤ size → ∃ v : ℕ, 1 ≤ v ∧ v ≤ size ∧
        (Num.die k size values c).addRoll s =
          .ok (.die k size (values ++ [.literal true [(v : ℚ)] false]) c,
            ⟨s.entropy.tail, s.counter + if c then 1 else 0⟩)) := by
  intro k size values c s
  constructor
  · intro h
    simp [Num.addRoll, h]
  · intro h
    refine ⟨s.entropy.headD 0 % size + 1, by omega, ?_, ?_⟩
    · have := Nat.mod_lt (s.entropy.headD 0) (show 0 < size by omega)
      omega
    · have hns : ¬ size < 1 := by omega
      simp only [Num.addRoll, hns, if_false, RollState.randrange, RollState.countRoll]
      cases c <;> simp

/-- Witness for **C3**: a 0-sided die fails; a d6 with entropy head 9
rolls 9 % 6 + 1 = 4 ∈ [1, 6] and bumps the attached context. -/
theorem addRoll_spec_witness :
    ((Num.die true 0 [] true).addRoll ⟨[9], 0⟩ =
        .error (.rollValue "Cannot roll a 0-sided die.")) ∧
    (∃ v : ℕ, 1 ≤ v ∧ v ≤ 6 ∧
      (Num.die true 6 [] true).addRoll ⟨[9], 0⟩ =
        .ok (.die true 6 [.literal true [(v : ℚ)] false] true, ⟨[], 0 + if true then 1 else 0⟩)) := by
  refine ⟨(addRoll_spec true 0 [] true ⟨[9], 0⟩).1 (by decide), ?_⟩
  have := (addRoll_spec true 6 [] true ⟨[9], 0⟩).2 (by decide)
  simpa using this

/-- Membership in one insertion-sort step. -/
theorem mem_insertPair {lt : (ℕ × ℚ) → (ℕ × ℚ) → Bool} {a x : ℕ × ℚ}
    {l : List (ℕ × ℚ)} : x ∈ insertPair lt a l ↔ x = a ∨ x ∈ l := by
  induction l with
  | nil => simp [insertPair]
  | cons b bs ih =>
      simp only [insertPair]
      split <;> (simp only [List.mem_cons, ih]; try tauto)

/-- The stable sort permutes: membership is preserved. -/
theorem mem_sortPairs {lt : (ℕ × ℚ) → (ℕ × ℚ) → Bool} {x : ℕ × ℚ}
    {l : List (ℕ × ℚ)} : x ∈ sortPairs lt l ↔ x ∈ l := by
  induction l with
  | nil => simp [sortPairs]
  | cons a as ih => simp [sortPairs, mem_insertPair, ih]

/-- Every selector category chooses only entries of the kept-totals
list it is given. -/
theorem dispatch_subset (sel : SetSelector) (L : List (ℕ × ℚ)) :
    ∀ e ∈ sel.dispatch L, e ∈ L := by
  intro e he
  unfold SetSelector.dispatch at he
  split at he
  · exact mem_sortPairs.mp (List.take_subset _ _ he)
  · exact mem_sortPairs.mp (List.take_subset _ _ he)
  · exact List.mem_of_mem_filter he
  · exact List.mem_of_mem_filter he
  · exact List.mem_of_mem_filter he

/-- When the kept-totals worker succeeds, the indices it returns are
exactly the kept indices. -/
theorem keptTotalsGo_map_fst :
    ∀ (ms : List Num) (j : ℕ) (L : List (ℕ × ℚ)),
      Num.keptTotalsGo j ms = .ok L → L.map Prod.fst = Num.keptIdxGo j ms := by
  intro ms
  induction ms with
  | nil =>
      intro j L h
      simp only [Num.keptTotalsGo] at h
      cases h
      simp [Num.keptIdxGo]
  | cons m rest ih =>
      intro j L h
      simp only [Num.keptTotalsGo] at h
      simp only [Num.keptIdxGo]
      by_cases hk : m.kept
      · rw [if_pos hk] at h
        rw [if_pos hk]
        cases ht : m.total with
        | error e => rw [ht] at h; simp at h
        | ok v =>
            rw [ht] at h
            simp only [okBind] at h
            cases hrest : Num.keptTotalsGo (j + 1) rest with
            | error e => rw [hrest] at h; simp at h
            | ok vs =>
                rw [hrest] at h
                simp only [okBind, purePure] at h
                cases h
                simp [ih _ _ hrest]
      · rw [if_neg hk] at h
        rw [if_neg hk]
        exact ih _ _ h

/-- When `keptTotals` succeeds, its indices are `keptIdx`. -/
theorem keptTotals_map_fst {t : Num} {L : List (ℕ × ℚ)}
    (h : t.keptTotals = .ok L) : L.map Prod.fst = t.keptIdx :=
  keptTotalsGo_map_fst _ _ _ h

/-- Unfolding the union worker of `SetOperator.select`. -/
theorem selectGo_mem :
    ∀ (sels : List SetSelector) (t : Num) (S : Finset ℕ),
      SetOperator.selectGo t sels = .ok S →
      ∀ i, i ∈ S ↔ ∃ sel ∈ sels, ∃ si, sel.select t = .ok si ∧ i ∈ si := by
  intro sels t
  induction sels with
  | nil =>
      intro S h i
      simp only [SetOperator.selectGo] at h
      cases h
      simp
  | cons sel rest ih =>
      intro S h i
      simp only [SetOperator.selectGo] at h
      cases hs : sel.select t with
      | error e => rw [hs] at h; simp at h
      | ok s1 =>
          rw [hs] at h
          simp only [okBind] at h
          cases hr : SetOperator.selectGo t rest with
          | error e => rw [hr] at h; simp at h
          | ok s2 =>
              rw [hr] at h
              simp only [okBind, purePure] at h
              cases h
              constructor
              · intro hi
                rcases Finset.mem_union.mp hi with h1 | h2
                · exact ⟨sel, by simp, s1, hs, h1⟩
                · rcases (ih s2 hr i).mp h2 with ⟨sel2, hmem, si, hsel2, hin⟩
                  exact ⟨sel2, by simp [hmem], si, hsel2, hin⟩
              · rintro ⟨sel2, hmem, si, hsel2, hin⟩
                rcases List.mem_cons.mp hmem with rfl | hmem2
                · rw [hs] at hsel2
                  cases hsel2
                  exact Finset.mem_union_left _ hin
                · exact Finset.mem_union_right _ ((ih s2 hr i).mpr ⟨sel2, hmem2, si, hsel2, hin⟩)

/-- **C8**: `SetOperator.select(target)` is the union (not the
intersection) of every selector's selection, and each selector — of
any category — selects only members of `target.keptset`, so a
selection never contains a member already dropped by an earlier
operator on the same container. -/
theorem select_union_keptset_spec :
    (∀ (o : SetOperator) (t : Num) (S : Finset ℕ), o.select t = .ok S →
        ∀ i, i ∈ S ↔ ∃ sel ∈ o.sels, ∃ si, sel.select t = .ok si ∧ i ∈ si) ∧
    (∀ (sel : SetSelector) (t : Num) (si : Finset ℕ), sel.select t = .ok si →
        ∀ i ∈ si, i ∈ t.keptIdx) := by
  constructor
  · intro o t S h i
    exact selectGo_mem o.sels t S h i
  · intro sel t si h i hi
    unfold SetSelector.select at h
    cases hkt : t.keptTotals with
    | error e => rw [hkt] at h; simp at h
    | ok L =>
        rw [hkt] at h
        simp only [okBind] at h
        cases h
        rw [← keptTotals_map_fst hkt]
        rcases List.mem_map.mp (List.mem_toFinset.mp hi) with ⟨e, he, rfl⟩
        exact List.mem_map_of_mem _ (dispatch_subset sel L e he)

/-- Witness for **C8**: a keep-highest-2 over a 4-literal pool selects
the union of its single selector's choice, which is inside the kept
indices. -/
theorem select_union_keptset_spec_witness :
    (∀ i, i ∈ ({2, 3} : Finset ℕ) ↔
      ∃ sel ∈ [(⟨some .high, 2⟩ : SetSelector)], ∃ si,
        sel.select (Num.setNode true
          [Num.literal true [1] false, Num.literal true [2] false,
           Num.literal true [3] false, Num.literal true [4] false]) = .ok si ∧ i ∈ si) ∧
    (∀ i ∈ ({2, 3} : Finset ℕ),
      i ∈ (Num.setNode true
          [Num.literal true [1] false, Num.literal true [2] false,
           Num.literal true [3] false, Num.literal true [4] false]).keptIdx) := by
  have hsel : SetSelector.select ⟨some .high, 2⟩
      (Num.setNode true
        [Num.literal true [1] false, Num.literal true [2] false,
         Num.literal true [3] false, Num.literal true [4] false]) = .ok {2, 3} := by
    simp [SetSelector.select, Num.keptTotals, Num.keptTotalsGo, Num.setMembers, Num.kept,
      Num.total, Num.number, SetSelector.dispatch, SetSelector.highestn, sortPairs, insertPair]
    decide
  constructor
  · intro i
    refine (select_union_keptset_spec.1 ⟨.k, [⟨some .high, 2⟩]⟩ _ {2, 3} ?_ i).symm.symm
    simp [SetOperator.select, SetOperator.selectGo, hsel]
  · intro i hi
    exact select_union_keptset_spec.2 ⟨some .high, 2⟩ _ {2, 3} hsel i hi

/-- `List.modify` at the head. -/
theorem modify_cons_zero {α : Type u} (f : α → α) (a : α) (l : List α) :
    (a :: l).modify f 0 = f a :: l := rfl

/-- `List.modify` past the head. -/
theorem modify_cons_succ {α : Type u} (f : α → α) (a : α) (l : List α) (i : ℕ) :
    (a :: l).modify f (i + 1) = a :: l.modify f i := rfl

/-- `List.modify` on the empty list. -/
theorem modify_nil {α : Type u} (f : α → α) (i : ℕ) :
    ([] : List α).modify f i = [] := by
  cases i <;> rfl

/-- Mutating the `i`-th set member commutes with reading the `set`
list, provided the mutation keeps the three self-membered leaf shapes
self-membered (true of every mutation used by an operator). -/
theorem setMembers_modifyMember (f : Num → Num)
    (hlit : ∀ (k : Bool) (vs : List ℚ) (e : Bool),
      (f (Num.literal k vs e)).setMembers = [f (Num.literal k vs e)])
    (hun : ∀ (k : Bool) (op : UnaryOp) (v : Num),
      (f (Num.unOp k op v)).setMembers = [f (Num.unOp k op v)])
    (hbin : ∀ (k : Bool) (op : BinaryOp) (l r : Num),
      (f (Num.binOp k op l r)).setMembers = [f (Num.binOp k op l r)]) :
    ∀ (t : Num) (i : ℕ),
      (t.modifyMember i f).setMembers = (t.setMembers).modify f i
  | .expression k roll, i => by
      simpa [Num.modifyMember, Num.setMembers] using
        setMembers_modifyMember f hlit hun hbin roll i
  | .parenthetical k v, i => by
      simpa [Num.modifyMember, Num.setMembers] using
        setMembers_modifyMember f hlit hun hbin v i
  | .setNode k vs, i => by
      simp [Num.modifyMember, Num.setMembers]
  | .dice k n sz vs c, i => by
      simp [Num.modifyMember, Num.setMembers]
  | .literal k vs e, i => by
      cases i with
      | zero => simp [Num.modifyMember, Num.setMembers, hlit, modify_cons_zero]
      | succ n => simp [Num.modifyMember, Num.setMembers, modify_cons_succ, modify_nil]
  | .unOp k op v, i => by
      cases i with
      | zero => simp [Num.modifyMember, Num.setMembers, hun, modify_cons_zero]
      | succ n => simp [Num.modifyMember, Num.setMembers, modify_cons_succ, modify_nil]
  | .binOp k op l r, i => by
      cases i with
      | zero => simp [Num.modifyMember, Num.setMembers, hbin, modify_cons_zero]
      | succ n => simp [Num.modifyMember, Num.setMembers, modify_cons_succ, modify_nil]
  | .die k sz vs c, i => by
      cases i with
      | zero =>
          simp only [Num.modifyMember, if_pos rfl, Num.setMembers, Num.modifyLastWith]
          cases hv : vs.getLast? with
          | none => simp [Num.setMembers, hv, modify_nil]
          | some a => simp [Num.setMembers, hv, List.getLast?_concat, modify_cons_zero]
      | succ n =>
          simp only [Num.modifyMember, Num.setMembers]
          cases hv : vs.getLast? with
          | none => simp [modify_nil]
          | some a => simp [modify_cons_succ, modify_nil]

/-- Reading member `j` after mutating member `i`. -/
theorem member_modifyMember (f : Num → Num)
    (hlit : ∀ (k : Bool) (vs : List ℚ) (e : Bool),
      (f (Num.literal k vs e)).setMembers = [f (Num.literal k vs e)])
    (hun : ∀ (k : Bool) (op : UnaryOp) (v : Num),
      (f (Num.unOp k op v)).setMembers = [f (Num.unOp k op v)])
    (hbin : ∀ (k : Bool) (op : BinaryOp) (l r : Num),
      (f (Num.binOp k op l r)).setMembers = [f (Num.binOp k op l r)])
    (t : Num) (i j : ℕ) :
    (t.modifyMember i f).member j =
      if i = j then (t.member j).map f else t.member j := by
  simp only [Num.member, setMembers_modifyMember f hlit hun hbin,
    List.get?_eq_getElem?, List.getElem?_modify]
  by_cases h : i = j
  · simp [h, Option.map]
  · simp only [if_neg h]
    cases t.setMembers[j]? <;> simp [h]

/-- `keptIdxGo` ignores a member mutation that does not change the
member's `kept` flag. -/
theorem keptIdxGo_modify (f : Num → Num) (hk : ∀ m, (f m).kept = m.kept) :
    ∀ (l : List Num) (j i : ℕ),
      Num.keptIdxGo j (l.modify f i) = Num.keptIdxGo j l := by
  intro l
  induction l with
  | nil => intro j i; simp [modify_nil]
  | cons a rest ih =>
      intro j i
      cases i with
      | zero => simp [modify_cons_zero, Num.keptIdxGo, hk]
      | succ n =>
          rw [modify_cons_succ]
          simp only [Num.keptIdxGo, ih]

/-- `keptIdx` ignores a member mutation that does not change `kept`
(such as the clamp's `force_value`). -/
theorem keptIdx_modifyMember (f : Num → Num)
    (hlit : ∀ (k : Bool) (vs : List ℚ) (e : Bool),
      (f (Num.literal k vs e)).setMembers = [f (Num.literal k vs e)])
    (hun : ∀ (k : Bool) (op : UnaryOp) (v : Num),
      (f (Num.unOp k op v)).setMembers = [f (Num.unOp k op v)])
    (hbin : ∀ (k : Bool) (op : BinaryOp) (l r : Num),
      (f (Num.binOp k op l r)).setMembers = [f (Num.binOp k op l r)])
    (hk : ∀ m, (f m).kept = m.kept) (t : Num) (i : ℕ) :
    (t.modifyMember i f).keptIdx = t.keptIdx := by
  simp [Num.keptIdx, setMembers_modifyMember f hlit hun hbin, keptIdxGo_modify f hk]

/-- Every index produced by `keptIdxGo` is at least the offset. -/
theorem keptIdxGo_le :
    ∀ (l : List Num) (j : ℕ), ∀ i ∈ Num.keptIdxGo j l, j ≤ i := by
  intro l
  induction l with
  | nil => intro j i hi; simp [Num.keptIdxGo] at hi
  | cons a rest ih =>
      intro j i hi
      simp only [Num.keptIdxGo] at hi
      by_cases hk : a.kept
      · rw [if_pos hk] at hi
        rcases List.mem_cons.mp hi with rfl | hi2
        · omega
        · have := ih (j + 1) i hi2
          omega
      · rw [if_neg hk] at hi
        have := ih (j + 1) i hi
        omega

/-- The kept indices are distinct. -/
theorem keptIdxGo_nodup :
    ∀ (l : List Num) (j : ℕ), (Num.keptIdxGo j l).Nodup := by
  intro l
  induction l with
  | nil => intro j; simp [Num.keptIdxGo]
  | cons a rest ih =>
      intro j
      simp only [Num.keptIdxGo]
      by_cases hk : a.kept
      · rw [if_pos hk]
        refine List.Nodup.cons ?_ (ih (j + 1))
        intro hmem
        have := keptIdxGo_le rest (j + 1) j hmem
        omega
      · rw [if_neg hk]
        exact ih (j + 1)

/-- `keptIdx` is duplicate-free. -/
theorem keptIdx_nodup (t : Num) : t.keptIdx.Nodup :=
  keptIdxGo_nodup _ 0

/-- `memberNumber` in terms of `member`. -/
theorem memberNumber_eq_member (t : Num) (i : ℕ) :
    t.memberNumber i =
      match t.member i with
      | some m => m.number
      | none => .error .indexError := rfl

/-- The three leaf self-membership conditions hold for `force_value`
(identity away from `Die`). -/
theorem forceValue_leaf_members (v : ℚ) :
    (∀ (k : Bool) (vs : List ℚ) (e : Bool),
      ((Num.literal k vs e).forceValue v).setMembers = [(Num.literal k vs e).forceValue v]) ∧
    (∀ (k : Bool) (op : UnaryOp) (w : Num),
      ((Num.unOp k op w).forceValue v).setMembers = [(Num.unOp k op w).forceValue v]) ∧
    (∀ (k : Bool) (op : BinaryOp) (l r : Num),
      ((Num.binOp k op l r).forceValue v).setMembers = [(Num.binOp k op l r).forceValue v]) :=
  ⟨fun _ _ _ => rfl, fun _ _ _ => rfl, fun _ _ _ _ => rfl⟩

/-- `force_value` never changes a node's `kept` flag. -/
theorem forceValue_kept (v : ℚ) (m : Num) : (m.forceValue v).kept = m.kept := by
  cases m <;> rfl

/-- Characterization of the single `minimum` pass over a duplicate-free
index list whose member numbers evaluate. -/
theorem clampMinGo_char (thr : ℚ) (V : ℕ → ℚ) :
    ∀ (idxs : List ℕ) (t : Num),
      idxs.Nodup →
      (∀ i ∈ idxs, t.memberNumber i = .ok (V i)) →
      ∃ t', SetOperator.clampMinGo thr idxs t = .ok t' ∧
        (∀ j ∈ idxs, t'.member j =
          if V j < thr then (t.member j).map (Num.forceValue · thr) else t.member j) ∧
        (∀ j, j ∉ idxs → t'.member j = t.member j) := by
  intro idxs
  induction idxs with
  | nil =>
      intro t _ _
      exact ⟨t, rfl, by simp, fun _ _ => rfl⟩
  | cons i rest ih =>
      intro t hnd hv
      have hvi := hv i (by simp)
      have hnotin : i ∉ rest := (List.nodup_cons.mp hnd).1
      set t1 := if V i < thr then t.modifyMember i (Num.forceValue · thr) else t with ht1
      have hmem1 : ∀ j, j ≠ i → t1.member j = t.member j := by
        intro j hj
        rw [ht1]
        split
        · rw [member_modifyMember _ (forceValue_leaf_members thr).1
            (forceValue_leaf_members thr).2.1 (forceValue_leaf_members thr).2.2]
          rw [if_neg (by omega)]
        · rfl
      have hmemi : t1.member i =
          if V i < thr then (t.member i).map (Num.forceValue · thr) else t.member i := by
        rw [ht1]
        split
        · rw [member_modifyMember _ (forceValue_leaf_members thr).1
            (forceValue_leaf_members thr).2.1 (forceValue_leaf_members thr).2.2]
          simp
        · rfl
      have hv1 : ∀ i2 ∈ rest, t1.memberNumber i2 = .ok (V i2) := by
        intro i2 h2
        rw [memberNumber_eq_member, hmem1 i2 (by rintro rfl; exact hnotin h2),
          ← memberNumber_eq_member]
        exact hv i2 (by simp [h2])
      rcases ih t1 (List.nodup_cons.mp hnd).2 hv1 with ⟨t', hrun, hin, hout⟩
      refine ⟨t', ?_, ?_, ?_⟩
      · simp only [SetOperator.clampMinGo, hvi, okBind]
        rw [← ht1]
        exact hrun
      · intro j hj
        rcases List.mem_cons.mp hj with rfl | hj2
        · rw [hout j hnotin, hmemi]
        · rw [hin j hj2, hmem1 j (by rintro rfl; exact hnotin hj2)]
      · intro j hj
        rw [hout j (fun h => hj (by simp [h])), hmem1 j (by rintro rfl; exact hj (by simp))]

/-- Characterization of the single `maximum` pass, symmetric to
`clampMinGo_char`. -/
theorem clampMaxGo_char (thr : ℚ) (V : ℕ → ℚ) :
    ∀ (idxs : List ℕ) (t : Num),
      idxs.Nodup →
      (∀ i ∈ idxs, t.memberNumber i = .ok (V i)) →
      ∃ t', SetOperator.clampMaxGo thr idxs t = .ok t' ∧
        (∀ j ∈ idxs, t'.member j =
          if thr < V j then (t.member j).map (Num.forceValue · thr) else t.member j) ∧
        (∀ j, j ∉ idxs → t'.member j = t.member j) := by
  intro idxs
  induction idxs with
  | nil =>
      intro t _ _
      exact ⟨t, rfl, by simp, fun _ _ => rfl⟩
  | cons i rest ih =>
      intro t hnd hv
      have hvi := hv i (by simp)
      have hnotin : i ∉ rest := (List.nodup_cons.mp hnd).1
      set t1 := if thr < V i then t.modifyMember i (Num.forceValue · thr) else t with ht1
      have hmem1 : ∀ j, j ≠ i → t1.member j = t.member j := by
        intro j hj
        rw [ht1]
        split
        · rw [member_modifyMember _ (forceValue_leaf_members thr).1
            (forceValue_leaf_members thr).2.1 (forceValue_leaf_members thr).2.2]
          rw [if_neg (by omega)]
        · rfl
      have hmemi : t1.member i =
          if thr < V i then (t.member i).map (Num.forceValue · thr) else t.member i := by
        rw [ht1]
        split
        · rw [member_modifyMember _ (forceValue_leaf_members thr).1
            (forceValue_leaf_members thr).2.1 (forceValue_leaf_members thr).2.2]
          simp
        · rfl
      have hv1 : ∀ i2 ∈ rest, t1.memberNumber i2 = .ok (V i2) := by
        intro i2 h2
        rw [memberNumber_eq_member, hmem1 i2 (by rintro rfl; exact hnotin h2),
          ← memberNumber_eq_member]
        exact hv i2 (by simp [h2])
      rcases ih t1 (List.nodup_cons.mp hnd).2 hv1 with ⟨t', hrun, hin, hout⟩
      refine ⟨t', ?_, ?_, ?_⟩
      · simp only [SetOperator.clampMaxGo, hvi, okBind]
        rw [← ht1]
        exact hrun
      · intro j hj
        rcases List.mem_cons.mp hj with rfl | hj2
        · rw [hout j hnotin, hmemi]
        · rw [hin j hj2, hmem1 j (by rintro rfl; exact hnotin hj2)]
      · intro j hj
        rw [hout j (fun h => hj (by simp [h])), hmem1 j (by rintro rfl; exact hj (by simp))]

/-- **C7**: `minimum` (`mi`) and `maximum` (`ma`) fail with the
invalid-selector error exactly when the last selector of the operator
has a category; with a plain equality selector they make one single
pass in which every currently-kept member whose `number` is below
(resp. above) the literal threshold gets the threshold appended by
`force_value` (the prior value stays in the history), and every other
member is untouched. -/
theorem clamp_spec :
    ∀ (o : SetOperator) (t : Num) (sel : SetSelector),
      o.sels.getLast? = some sel →
      ((∀ c, sel.cat = some c →
          o.minimum t = .error (.rollValue (sel.str ++ " is not a valid selector for minimums.")) ∧
          o.maximum t = .error (.rollValue (sel.str ++ " is not a valid selector for maximums."))) ∧
       (∀ V : ℕ → ℚ, sel.cat = none →
          (∀ i ∈ t.keptIdx, t.memberNumber i = .ok (V i)) →
          (∃ t', o.minimum t = .ok t' ∧ ∀ j,
              t'.member j =
                if j ∈ t.keptIdx ∧ V j < (sel.num : ℚ)
                then (t.member j).map (Num.forceValue · (sel.num : ℚ))
                else t.member j) ∧
          (∃ t', o.maximum t = .ok t' ∧ ∀ j,
              t'.member j =
                if j ∈ t.keptIdx ∧ (sel.num : ℚ) < V j
                then (t.member j).map (Num.forceValue · (sel.num : ℚ))
                else t.member j))) := by
  intro o t sel hlast
  obtain ⟨cat, num⟩ := sel
  constructor
  · rintro c rfl
    constructor
    · unfold SetOperator.minimum
      rw [hlast]
    · unfold SetOperator.maximum
      rw [hlast]
  · intro V hc hv
    simp only at hc
    subst hc
    constructor
    · rcases clampMinGo_char (num : ℚ) V t.keptIdx t (keptIdx_nodup t) hv
        with ⟨t', hrun, hin, hout⟩
      refine ⟨t', ?_, ?_⟩
      · unfold SetOperator.minimum
        rw [hlast]
        exact hrun
      · intro j
        by_cases hj : j ∈ t.keptIdx
        · rw [hin j hj]
          by_cases hlt : V j < (num : ℚ) <;> simp [hlt, hj]
        · rw [hout j hj]
          simp [hj]
    · rcases clampMaxGo_char (num : ℚ) V t.keptIdx t (keptIdx_nodup t) hv
        with ⟨t', hrun, hin, hout⟩
      refine ⟨t', ?_, ?_⟩
      · unfold SetOperator.maximum
        rw [hlast]
        exact hrun
      · intro j
        by_cases hj : j ∈ t.keptIdx
        · rw [hin j hj]
          by_cases hlt : (num : ℚ) < V j <;> simp [hlt, hj]
        · rw [hout j hj]
          simp [hj]

/-- Witness for **C7**: clamp-minimum with a highest-1 final selector
fails with the invalid-selector error; clamp-minimum-3 on a single-die
pool currently valued 1 forces the value to 3, keeping 1 in the
history, and the pool then totals 3. -/
theorem clamp_spec_witness :
    SetOperator.minimum ⟨.mi, [⟨some .high, 1⟩]⟩
        (Num.dice true 1 6 [Num.die true 6 [Num.literal true [1] false] false] false) =
      .error (.rollValue "h1 is not a valid selector for minimums.") ∧
    SetOperator.minimum ⟨.mi, [⟨none, 3⟩]⟩
        (Num.dice true 1 6 [Num.die true 6 [Num.literal true [1] false] false] false) =
      .ok (Num.dice true 1 6 [Num.die true 6 [Num.literal true [1, 3] false] false] false) ∧
    (Num.dice true 1 6 [Num.die true 6 [Num.literal true [1, 3] false] false] false).total =
      .ok 3 := by
  refine ⟨((clamp_spec ⟨.mi, [⟨some .high, 1⟩]⟩
      (Num.dice true 1 6 [Num.die true 6 [Num.literal true [1] false] false] false)
      ⟨some .high, 1⟩ rfl).1 .high rfl).1, ?_, ?_⟩
  · simp [SetOperator.minimum, SetOperator.clampMinGo, Num.keptIdx, Num.keptIdxGo,
      Num.setMembers, Num.kept, Num.memberNumber, Num.number, Num.total, Num.lastTotal,
      Num.modifyMember, Num.forceValue, Num.modifyLastWith, Num.update, modify_cons_zero]
  · simp [Num.total, Num.number, Num.kept, Num.lastTotal, Num.sumKeptNumbers]

/-- **C5**: `Die.reroll` drops the current `Literal` and rolls again
(history grows, only the last entry live); the `rr` operator re-queries
the selection after every pass and only terminates when a pass selects
the empty set, so on termination no kept member's current total
satisfies the selection — in particular, after reroll-on-`m` no kept
member's total is `m`. -/
theorem reroll_spec :
    (∀ (k : Bool) (sz : ℕ) (vs : List Num) (c : Bool) (s : RollState),
      1 ≤ sz → ∃ v : ℕ, 1 ≤ v ∧ v ≤ sz ∧
        (Num.die k sz vs c).reroll s =
          .ok (.die k sz (Num.modifyLastWith Num.drop vs ++ [.literal true [(v : ℚ)] false]) c,
            ⟨s.entropy.tail, s.counter + if c then 1 else 0⟩)) ∧
    (∀ (o : SetOperator) (fuel : ℕ) (t : Num) (s : RollState) (t' : Num) (s' : RollState),
      o.reroll fuel t s = .ok (some (t', s')) → o.select t' = .ok ∅) ∧
    (∀ (m : Int) (fuel : ℕ) (t : Num) (s : RollState) (t' : Num) (s' : RollState)
        (L : List (ℕ × ℚ)),
      SetOperator.reroll ⟨.rr, [⟨none, m⟩]⟩ fuel t s = .ok (some (t', s')) →
      t'.keptTotals = .ok L →
      ∀ p ∈ L, p.2 ≠ (m : ℚ)) := by
  have hterm : ∀ (o : SetOperator) (fuel : ℕ) (t : Num) (s : RollState) (t' : Num)
      (s' : RollState), o.reroll fuel t s = .ok (some (t', s')) → o.select t' = .ok ∅ := by
    intro o fuel
    induction fuel with
    | zero =>
        intro t s t' s' h
        simp [SetOperator.reroll] at h
    | succ n ih =>
        intro t s t' s' h
        simp only [SetOperator.reroll] at h
        cases hsel : o.select t with
        | error e => rw [hsel] at h; simp at h
        | ok sel =>
            rw [hsel] at h
            simp only [okBind] at h
            by_cases hne : sel = ∅
            · rw [if_pos hne] at h
              cases h
              rw [hsel, hne]
            · rw [if_neg hne] at h
              cases hre : SetOperator.rerollEach (sel.sort (· ≤ ·)) t s with
              | error e => rw [hre] at h; simp at h
              | ok r =>
                  rw [hre] at h
                  simp only [okBind] at h
                  exact ih r.1 r.2 t' s' h
  refine ⟨?_, hterm, ?_⟩
  · intro k sz vs c s h
    refine ⟨s.entropy.headD 0 % sz + 1, by omega, ?_, ?_⟩
    · have := Nat.mod_lt (s.entropy.headD 0) (show 0 < sz by omega)
      omega
    · have hns : ¬ sz < 1 := by omega
      simp only [Num.reroll, Num.addRoll, hns, if_false, RollState.randrange,
        RollState.countRoll]
      cases c <;> simp
  · intro m fuel t s t' s' L hrun hkt p hp hpm
    have hsel := hterm _ _ _ _ _ _ hrun
    simp only [SetOperator.select, SetOperator.selectGo, SetSelector.select, hkt, okBind,
      purePure, Except.ok.injEq, Finset.union_empty] at hsel
    have hmem : p.1 ∈ ((SetSelector.dispatch ⟨none, m⟩ L).map Prod.fst).toFinset := by
      simp only [List.mem_toFinset]
      refine List.mem_map_of_mem _ ?_
      simp only [SetSelector.dispatch, SetSelector.literalSel]
      exact List.mem_filter.mpr ⟨hp, by simpa using hpm⟩
    rw [hsel] at hmem
    simp at hmem

/-- Witness for **C5**: a d20 currently valued 1 rerolls (the 1 is
dropped, the fresh roll appended); a reroll-on-1 run over a pool whose
single die shows 2 terminates at once, and its kept totals all differ
from 1. -/
theorem reroll_spec_witness :
    (∃ v : ℕ, 1 ≤ v ∧ v ≤ 20 ∧
      (Num.die true 20 [Num.literal true [1] false] false).reroll ⟨[4], 0⟩ =
        .ok (.die true 20
          (Num.modifyLastWith Num.drop [Num.literal true [1] false] ++
            [.literal true [((v : ℕ) : ℚ)] false]) false,
          ⟨[], 0 + if false then 1 else 0⟩)) ∧
    (∀ p ∈ [((0 : ℕ), (2 : ℚ))], p.2 ≠ ((1 : Int) : ℚ)) := by
  constructor
  · exact reroll_spec.1 true 20 [Num.literal true [1] false] false ⟨[4], 0⟩ (by decide)
  · refine reroll_spec.2.2 1 1
      (Num.dice true 1 20 [Num.die true 20 [Num.literal true [2] false] false] false)
      ⟨[], 0⟩
      (Num.dice true 1 20 [Num.die true 20 [Num.literal true [2] false] false] false)
      ⟨[], 0⟩ [((0 : ℕ), (2 : ℚ))] ?_ ?_
    · simp [SetOperator.reroll, SetOperator.select, SetOperator.selectGo, SetSelector.select,
        Num.keptTotals, Num.keptTotalsGo, Num.setMembers, Num.kept, Num.total, Num.number,
        Num.lastTotal, SetSelector.dispatch, SetSelector.literalSel]
    · simp [Num.keptTotals, Num.keptTotalsGo, Num.setMembers, Num.kept, Num.total, Num.number,
        Num.lastTotal]

/-- `List.modify` at the junction of an append. -/
theorem modify_append_length {α : Type u} (f : α → α) (a : α) :
    ∀ (l1 l2 : List α), (l1 ++ a :: l2).modify f l1.length = l1 ++ f a :: l2 := by
  intro l1
  induction l1 with
  | nil => intro l2; simp [modify_cons_zero]
  | cons x xs ih =>
      intro l2
      simp only [List.cons_append, List.length_cons, modify_cons_succ, ih]

/-- Kept totals of a pool of exploded sixes followed by one last die
of value `x`: every die is kept, the sixes total 6 and the last totals
`x`. -/
theorem keptTotalsGo_replicate_six_append (x : ℚ) (exfl : Bool) :
    ∀ (m j : ℕ),
      Num.keptTotalsGo j
          (List.replicate m (Num.die true 6 [Num.literal true [6] true] false) ++
            [Num.die true 6 [Num.literal true [x] exfl] false]) =
        .ok ((List.range' j m).map (fun i => (i, (6 : ℚ))) ++ [(j + m, x)]) := by
  intro m
  induction m with
  | zero =>
      intro j
      simp [Num.keptTotalsGo, Num.total, Num.number, Num.kept, Num.lastTotal]
  | succ mm ih =>
      intro j
      rw [List.replicate_succ, List.cons_append]
      simp only [Num.keptTotalsGo]
      rw [if_pos (show Num.kept (Num.die true 6 [Num.literal true [6] true] false) = true
        from rfl)]
      rw [show Num.total (Num.die true 6 [Num.literal true [6] true] false) = .ok 6 from by
        simp [Num.total, Num.number, Num.kept, Num.lastTotal]]
      rw [ih (j + 1)]
      simp only [okBind, purePure, Except.ok.injEq, List.range'_succ, List.map_cons,
        List.cons_append, List.cons.injEq]
      rw [show j + 1 + mm = j + (mm + 1) from by omega]
      simp

/-- The explode-on-6 selection over such a pool: all the sixes, plus
the final die exactly when it shows 6. -/
theorem select_pool_six (n0 m : ℕ) (x : ℚ) (exfl : Bool) :
    SetOperator.select ⟨.e, [⟨none, 6⟩]⟩
      (Num.dice true n0 6
        (List.replicate m (Num.die true 6 [Num.literal true [6] true] false) ++
          [Num.die true 6 [Num.literal true [x] exfl] false]) false) =
      .ok (if x = 6 then Finset.range (m + 1) else Finset.range m) := by
  have h := keptTotalsGo_replicate_six_append x exfl m 0
  simp only [SetOperator.select, SetOperator.selectGo, SetSelector.select, Num.keptTotals,
    Num.setMembers, h, okBind, purePure, Except.ok.injEq, Finset.union_empty]
  rw [← List.range_eq_range']
  simp only [SetSelector.dispatch, SetSelector.literalSel, List.filter_append,
    List.filter_map, List.map_append, List.map_map]
  rw [show ((6 : ℤ) : ℚ) = (6 : ℚ) from by norm_num]
  rw [show (List.filter ((fun (e : ℕ × ℚ) => decide (e.2 = 6)) ∘ fun i => (i, (6 : ℚ)))
      (List.range m)) = List.range m from List.filter_eq_self.mpr (by simp)]
  rw [show (Prod.fst ∘ fun (i : ℕ) => (i, (6 : ℚ))) = id from by funext i; simp]
  simp only [List.map_id, Nat.zero_add]
  by_cases hx : x = 6
  · subst hx
    rw [if_pos rfl]
    simp only [List.filter_cons, decide_eq_true_eq, if_pos rfl, List.filter_nil]
    norm_num
    ext i
    simp only [Finset.mem_union, List.mem_toFinset, List.mem_range, Finset.mem_singleton,
      Finset.mem_range]
    omega
  · rw [if_neg hx]
    simp only [List.filter_cons, List.filter_nil]
    rw [if_neg (by simpa using hx)]
    simp only [List.map_nil, List.append_nil]
    ext i
    simp

/-- The two range set-algebra facts used by the explode loop. -/
theorem range_succ_sdiff_range (m : ℕ) :
    Finset.range (m + 1) \ Finset.range m = {m} := by
  ext i
  simp only [Finset.mem_sdiff, Finset.mem_range, Finset.mem_singleton]
  omega

/-- Adding the newly exploded index to the already-exploded set. -/
theorem range_union_singleton (m : ℕ) :
    Finset.range m ∪ {m} = Finset.range (m + 1) := by
  ext i
  simp only [Finset.mem_union, Finset.mem_range, Finset.mem_singleton]
  omega

/-- A replacement die whose entropy is not `5 (mod 6)` does not show
6. -/
theorem offdie_ne_six (b : ℕ) (hb : b % 6 ≠ 5) : ((b % 6 : ℕ) : ℚ) + 1 ≠ 6 := by
  intro h
  have h5 : ((b % 6 : ℕ) : ℚ) = 5 := by linarith
  have : b % 6 = 5 := by exact_mod_cast h5
  exact hb this

/-- `List.modify` at the index right past a `replicate` prefix. -/
theorem modify_replicate_append {α : Type u} (f : α → α) (a b : α) :
    ∀ m, (List.replicate m a ++ [b]).modify f m = List.replicate m a ++ [f b] := by
  intro m
  induction m with
  | zero => simp [modify_cons_zero]
  | succ n ih => simp [List.replicate_succ, modify_cons_succ, ih]

/-- One explode step on the last (unexploded) six of such a pool:
its `Literal` is marked exploded and exactly one freshly rolled die is
appended from the next entropy value. -/
theorem explodeEach_single (m n0 cnt : ℕ) (e0 : ℕ) (erest : List ℕ) :
    SetOperator.explodeEach [m]
      (Num.dice true n0 6
        (List.replicate m (Num.die true 6 [Num.literal true [6] true] false) ++
          [Num.die true 6 [Num.literal true [6] false] false]) false)
      ⟨e0 :: erest, cnt⟩ =
      .ok (Num.dice true n0 6
        (List.replicate (m + 1) (Num.die true 6 [Num.literal true [6] true] false) ++
          [Num.die true 6 [Num.literal true [((e0 % 6 : ℕ) : ℚ) + 1] false] false]) false,
        ⟨erest, cnt⟩) := by
  simp only [SetOperator.explodeEach, Num.modifyMember]
  rw [modify_replicate_append]
  rw [show Num.dieExplode (Num.die true 6 [Num.literal true [6] false] false) =
    Num.die true 6 [Num.literal true [6] true] false from rfl]
  rw [← List.replicate_succ']
  simp only [Num.rollAnother, Num.dieNew, Num.addRoll]
  norm_num
  simp only [RollState.randrange, List.headD, List.tail, okBind, purePure,
    SetOperator.explodeEach]
  exact ⟨trivial, trivial⟩


/-- The explode-on-6 loop over a pool of `m` already-exploded sixes
(recorded in the already-exploded set) plus one fresh six: each pass
explodes exactly that one new six (marking it) and appends exactly one
replacement die; with `k` further sixes in the entropy followed by a
non-six, the loop terminates right after the first non-six lands. -/
theorem explode_loop_six (b : ℕ) (hb : b % 6 ≠ 5) :
    ∀ (k : ℕ), ∀ (m n0 cnt : ℕ) (rest : List ℕ),
      SetOperator.explode ⟨.e, [⟨none, 6⟩]⟩ (k + 2) (Finset.range m)
        (Num.dice true n0 6
          (List.replicate m (Num.die true 6 [Num.literal true [6] true] false) ++
            [Num.die true 6 [Num.literal true [6] false] false]) false)
        ⟨List.replicate k 5 ++ b :: rest, cnt⟩ =
      .ok (some (Num.dice true n0 6
          (List.replicate (m + k + 1) (Num.die true 6 [Num.literal true [6] true] false) ++
            [Num.die true 6 [Num.literal true [((b % 6 : ℕ) : ℚ) + 1] false] false]) false,
        ⟨rest, cnt⟩)) := by
  intro k
  induction k with
  | zero =>
      intro m n0 cnt rest
      rw [show (List.replicate 0 (5 : ℕ) ++ b :: rest) = b :: rest from rfl]
      show SetOperator.explode _ (1 + 1) _ _ _ = _
      simp only [SetOperator.explode]
      rw [select_pool_six]
      rw [if_pos rfl]
      simp only [okBind]
      rw [range_succ_sdiff_range]
      rw [if_neg (Finset.singleton_ne_empty m)]
      rw [Finset.sort_singleton]
      rw [explodeEach_single]
      simp only [okBind]
      show SetOperator.explode _ (0 + 1) _ _ _ = _
      simp only [SetOperator.explode]
      rw [select_pool_six]
      rw [if_neg (offdie_ne_six b hb)]
      simp only [okBind]
      rw [range_union_singleton, Finset.sdiff_self]
      rw [if_pos rfl]
  | succ kk ih =>
      intro m n0 cnt rest
      rw [List.replicate_succ, List.cons_append]
      show SetOperator.explode _ ((kk + 2) + 1) _ _ _ = _
      simp only [SetOperator.explode]
      rw [select_pool_six]
      rw [if_pos rfl]
      simp only [okBind]
      rw [range_succ_sdiff_range]
      rw [if_neg (Finset.singleton_ne_empty m)]
      rw [Finset.sort_singleton]
      rw [explodeEach_single]
      simp only [okBind]
      rw [range_union_singleton]
      rw [show ((5 % 6 : ℕ) : ℚ) + 1 = 6 from by norm_num]
      have ih2 := ih (m + 1) n0 cnt rest
      rw [show m + 1 + kk + 1 = m + (kk + 1) + 1 from by omega] at ih2
      simp only [SetOperator.explode] at ih2 ⊢
      exact ih2


/-- **C6**: the explode operator explodes each selected die (marking
its current `Literal`) and appends exactly one freshly rolled
replacement per exploded die; each pass excludes the dice already
exploded by a prior pass of the same call (tracked by identity =
index, stable under the appends), and the loop ends when the current
selection minus the already-exploded set is empty — so explode-on-6 of
a single d6 that rolls `k` further sixes before a non-six ends with
`1 + (k + 1)` dice: the original and every six-showing replacement
marked exploded, plus the final non-six replacement. -/
theorem explode_spec :
    (∀ (idxs : List ℕ) (k : Bool) (nn sz : ℕ) (vs : List Num) (c : Bool) (s : RollState),
      1 ≤ sz →
      ∃ (vs2 : List Num) (s2 : RollState),
        SetOperator.explodeEach idxs (.dice k nn sz vs c) s = .ok (.dice k nn sz vs2 c, s2) ∧
        vs2.length = vs.length + idxs.length) ∧
    (∀ (b : ℕ), b % 6 ≠ 5 → ∀ (k n0 cnt : ℕ) (rest : List ℕ),
      SetOperator.explode ⟨.e, [⟨none, 6⟩]⟩ (k + 2) ∅
        (Num.dice true n0 6 [Num.die true 6 [Num.literal true [6] false] false] false)
        ⟨List.replicate k 5 ++ b :: rest, cnt⟩ =
      .ok (some (Num.dice true n0 6
          (List.replicate (k + 1) (Num.die true 6 [Num.literal true [6] true] false) ++
            [Num.die true 6 [Num.literal true [((b % 6 : ℕ) : ℚ) + 1] false] false]) false,
        ⟨rest, cnt⟩)) ∧
      (List.replicate (k + 1) (Num.die true 6 [Num.literal true [6] true] false) ++
        [Num.die true 6 [Num.literal true [((b % 6 : ℕ) : ℚ) + 1] false] false]).length
        = 1 + (k + 1)) := by
  constructor
  · intro idxs
    induction idxs with
    | nil =>
        intro k nn sz vs c s h
        exact ⟨vs, s, rfl, by simp⟩
    | cons i irest ih =>
        intro k nn sz vs c s h
        have hroll : ∀ (vsx : List Num) (sx : RollState), ∃ d sx2,
            (Num.dice k nn sz vsx c).rollAnother sx = .ok (.dice k nn sz (vsx ++ [d]) c, sx2) := by
          intro vsx sx
          refine ⟨.die true sz
              [.literal true [((sx.entropy.headD 0 % sz : ℕ) : ℚ) + 1] false] c,
            ⟨sx.entropy.tail, if c then sx.counter + 1 else sx.counter⟩, ?_⟩
          simp only [Num.rollAnother, Num.dieNew, Num.addRoll]
          rw [if_neg (by omega)]
          cases c <;> simp [RollState.randrange, RollState.countRoll]
        rcases hroll (List.modify Num.dieExplode i vs) s with ⟨d, s1, hr⟩
        rcases ih k nn sz (List.modify Num.dieExplode i vs ++ [d]) c s1 h with
          ⟨vs2, s2, hrun, hlen⟩
        refine ⟨vs2, s2, ?_, ?_⟩
        · simp only [SetOperator.explodeEach, Num.modifyMember, hr, okBind]
          exact hrun
        · rw [hlen]
          simp [List.length_modify]
          try omega
  · intro b hb k n0 cnt rest
    constructor
    · have h := explode_loop_six b hb k 0 n0 cnt rest
      simpa using h
    · simp only [List.length_append, List.length_replicate, List.length_cons,
        List.length_nil]
      omega

/-- Witness for **C6**: one explode pass on a single-die d6 pool
appends exactly one die; a d6 that lands 6, whose replacement also
rolls 6 and whose second replacement rolls 3, ends exploded with 3
dice. -/
theorem explode_spec_witness :
    (∃ (vs2 : List Num) (s2 : RollState),
      SetOperator.explodeEach [0]
        (.dice true 1 6 [Num.die true 6 [Num.literal true [6] false] false] false) ⟨[1], 0⟩ =
        .ok (.dice true 1 6 vs2 false, s2) ∧ vs2.length = 1 + 1) ∧
    SetOperator.explode ⟨.e, [⟨none, 6⟩]⟩ 3 ∅
        (Num.dice true 1 6 [Num.die true 6 [Num.literal true [6] false] false] false)
        ⟨[5, 2], 7⟩ =
      .ok (some (Num.dice true 1 6
        [Num.die true 6 [Num.literal true [6] true] false,
         Num.die true 6 [Num.literal true [6] true] false,
         Num.die true 6 [Num.literal true [3] false] false] false, ⟨[], 7⟩)) := by
  constructor
  · have h := explode_spec.1 [0] true 1 6
      [Num.die true 6 [Num.literal true [6] false] false] false ⟨[1], 0⟩ (by decide)
    simpa using h
  · have h := (explode_spec.2 2 (by decide) 1 1 7 []).1
    have h2 : ((2 % 6 : ℕ) : ℚ) + 1 = 3 := by norm_num
    rw [h2] at h
    simpa [List.replicate] using h


/-- Insertion keeps an element in front when nothing in the list
strictly precedes it. -/
theorem insertPair_front {lt : (ℕ × ℚ) → (ℕ × ℚ) → Bool} {a : ℕ × ℚ}
    {l : List (ℕ × ℚ)} (h : ∀ x ∈ l, lt x a = false) :
    insertPair lt a l = a :: l := by
  cases l with
  | nil => rfl
  | cons b bs =>
      simp only [insertPair]
      rw [h b (by simp)]
      simp

/-- The stable sort's output invariant: no later element strictly
precedes an earlier one. -/
theorem insertPair_pairwise {lt : (ℕ × ℚ) → (ℕ × ℚ) → Bool}
    (hasymm : ∀ a b, lt b a = true → lt a b = false)
    (htrans : ∀ a b c, lt b a = false → lt c b = false → lt c a = false)
    {a : ℕ × ℚ} {l : List (ℕ × ℚ)}
    (hl : l.Pairwise (fun x y => lt y x = false)) :
    (insertPair lt a l).Pairwise (fun x y => lt y x = false) := by
  induction l with
  | nil => simp [insertPair]
  | cons b bs ih =>
      rcases List.pairwise_cons.mp hl with ⟨hb, hbs⟩
      simp only [insertPair]
      by_cases hba : lt b a = true
      · rw [if_pos hba]
        refine List.pairwise_cons.mpr ⟨?_, ih hbs⟩
        intro y hy
        rcases mem_insertPair.mp hy with rfl | hy2
        · exact hasymm _ _ hba
        · exact hb y hy2
      · rw [if_neg hba]
        refine List.pairwise_cons.mpr ⟨?_, hl⟩
        intro y hy
        rcases List.mem_cons.mp hy with rfl | hy2
        · exact Bool.eq_false_iff.mpr hba
        · exact htrans a b y (Bool.eq_false_iff.mpr hba) (hb y hy2)

theorem sortPairs_pairwise {lt : (ℕ × ℚ) → (ℕ × ℚ) → Bool}
    (hasymm : ∀ a b, lt b a = true → lt a b = false)
    (htrans : ∀ a b c, lt b a = false → lt c b = false → lt c a = false) :
    ∀ l : List (ℕ × ℚ), (sortPairs lt l).Pairwise (fun x y => lt y x = false) := by
  intro l
  induction l with
  | nil => simp [sortPairs]
  | cons a as ih => exact insertPair_pairwise hasymm htrans ih

/-- Filtering commutes with a single stable insertion into a sorted
list. -/
theorem insertPair_filter {lt : (ℕ × ℚ) → (ℕ × ℚ) → Bool}
    (htrans : ∀ a b c, lt b a = false → lt c b = false → lt c a = false)
    (q : (ℕ × ℚ) → Bool) {a : ℕ × ℚ} :
    ∀ {l : List (ℕ × ℚ)}, l.Pairwise (fun x y => lt y x = false) →
      (insertPair lt a l).filter q =
        if q a then insertPair lt a (l.filter q) else l.filter q := by
  intro l
  induction l with
  | nil =>
      intro _
      by_cases hqa : q a = true <;> simp [insertPair, List.filter_cons, hqa]
  | cons b bs ih =>
      intro hl
      rcases List.pairwise_cons.mp hl with ⟨hb, hbs⟩
      simp only [insertPair]
      by_cases hba : lt b a = true
      · rw [if_pos hba]
        rw [List.filter_cons]
        by_cases hqb : q b = true
        · rw [if_pos hqb, ih hbs, List.filter_cons, if_pos hqb]
          by_cases hqa : q a = true
          · rw [if_pos hqa, if_pos hqa]
            simp only [insertPair]
            rw [if_pos hba]
          · rw [if_neg hqa, if_neg hqa]
        · rw [if_neg hqb, ih hbs, List.filter_cons, if_neg hqb]
      · rw [if_neg hba]
        by_cases hqa : q a = true
        · have hfront : ∀ x ∈ (b :: bs).filter q, lt x a = false := by
            intro x hx
            rcases List.mem_filter.mp hx with ⟨hx2, _⟩
            rcases List.mem_cons.mp hx2 with rfl | hx3
            · exact Bool.eq_false_iff.mpr hba
            · exact htrans a b x (Bool.eq_false_iff.mpr hba) (hb x hx3)
          rw [List.filter_cons, if_pos hqa, if_pos hqa, insertPair_front hfront]
        · rw [List.filter_cons, if_neg hqa, if_neg hqa]

/-- Filtering commutes with the stable sort. -/
theorem sortPairs_filter {lt : (ℕ × ℚ) → (ℕ × ℚ) → Bool}
    (hasymm : ∀ a b, lt b a = true → lt a b = false)
    (htrans : ∀ a b c, lt b a = false → lt c b = false → lt c a = false)
    (q : (ℕ × ℚ) → Bool) :
    ∀ l : List (ℕ × ℚ), sortPairs lt (l.filter q) = (sortPairs lt l).filter q := by
  intro l
  induction l with
  | nil => simp [sortPairs]
  | cons a as ih =>
      rw [List.filter_cons]
      by_cases hqa : q a = true
      · rw [if_pos hqa]
        simp only [sortPairs, ih]
        rw [insertPair_filter htrans q (sortPairs_pairwise hasymm htrans as), if_pos hqa]
      · rw [if_neg hqa]
        simp only [sortPairs, ih]
        rw [insertPair_filter htrans q (sortPairs_pairwise hasymm htrans as), if_neg hqa]

/-- Filtering below a prefix that survives the filter keeps the
prefix. -/
theorem take_filter_of_take (q : (ℕ × ℚ) → Bool) :
    ∀ (n : ℕ) (s : List (ℕ × ℚ)), (∀ e ∈ s.take n, q e = true) →
      (s.filter q).take n = s.take n := by
  intro n
  induction n with
  | zero => intro s _; simp
  | succ nn ih =>
      intro s hq
      cases s with
      | nil => simp
      | cons a s2 =>
          have hqa : q a = true := hq a (by simp)
          rw [List.filter_cons, if_pos hqa]
          simp only [List.take_succ_cons]
          rw [ih s2 (fun e he => hq e (by simp [he]))]


/-- `drop` flips `kept` off on every node shape. -/
theorem drop_kept_false (n : Num) : (Num.drop n).kept = false := by
  cases n <;> rfl

/-- `drop` keeps the three leaf shapes self-membered. -/
theorem drop_leaf_members :
    (∀ (k : Bool) (vs : List ℚ) (e : Bool),
      (Num.drop (Num.literal k vs e)).setMembers = [Num.drop (Num.literal k vs e)]) ∧
    (∀ (k : Bool) (op : UnaryOp) (v : Num),
      (Num.drop (Num.unOp k op v)).setMembers = [Num.drop (Num.unOp k op v)]) ∧
    (∀ (k : Bool) (op : BinaryOp) (l r : Num),
      (Num.drop (Num.binOp k op l r)).setMembers = [Num.drop (Num.binOp k op l r)]) :=
  ⟨fun _ _ _ => rfl, fun _ _ _ => rfl, fun _ _ _ _ => rfl⟩

/-- Every kept-total entry's index is at least the offset. -/
theorem keptTotalsGo_fst_ge {l : List Num} {j : ℕ} {L : List (ℕ × ℚ)}
    (h : Num.keptTotalsGo j l = .ok L) : ∀ e ∈ L, j ≤ e.1 := by
  intro e he
  have : e.1 ∈ L.map Prod.fst := List.mem_map_of_mem _ he
  rw [keptTotalsGo_map_fst l j L h] at this
  exact keptIdxGo_le l j e.1 this

/-- Dropping the member at position `p` removes exactly its entry from
the kept totals. -/
theorem keptTotalsGo_modify_drop :
    ∀ (l : List Num) (j p : ℕ) (L : List (ℕ × ℚ)),
      Num.keptTotalsGo j l = .ok L →
      Num.keptTotalsGo j (l.modify Num.drop p) =
        .ok (L.filter (fun e => decide (e.1 ≠ j + p))) := by
  intro l
  induction l with
  | nil =>
      intro j p L h
      simp only [Num.keptTotalsGo] at h
      cases h
      simp [modify_nil, Num.keptTotalsGo]
  | cons a rest ih =>
      intro j p L h
      simp only [Num.keptTotalsGo] at h
      cases p with
      | zero =>
          rw [modify_cons_zero]
          simp only [Num.keptTotalsGo, drop_kept_false, Bool.false_eq_true, if_false]
          by_cases hk : a.kept
          · rw [if_pos hk] at h
            cases ht : a.total with
            | error e => rw [ht] at h; simp at h
            | ok va =>
                rw [ht] at h
                simp only [okBind] at h
                cases hrest : Num.keptTotalsGo (j + 1) rest with
                | error e => rw [hrest] at h; simp at h
                | ok L1 =>
                    rw [hrest] at h
                    simp only [okBind, purePure] at h
                    cases h
                    rw [List.filter_cons]
                    rw [if_neg (by simp)]
                    have hself : List.filter (fun e => decide (e.1 ≠ j + 0)) L1 = L1 := by
                      apply List.filter_eq_self.mpr
                      intro e he
                      have hge := keptTotalsGo_fst_ge hrest e he
                      exact decide_eq_true (by omega)
                    rw [hself]
          · rw [if_neg hk] at h
            rw [h]
            have hself : List.filter (fun e => decide (e.1 ≠ j + 0)) L = L := by
              apply List.filter_eq_self.mpr
              intro e he
              have hge := keptTotalsGo_fst_ge h e he
              exact decide_eq_true (by omega)
            rw [hself]
      | succ pp =>
          rw [modify_cons_succ]
          simp only [Num.keptTotalsGo]
          by_cases hk : a.kept
          · rw [if_pos hk] at h
            rw [if_pos hk]
            cases ht : a.total with
            | error e => rw [ht] at h; simp at h
            | ok va =>
                rw [ht] at h
                simp only [okBind] at h
                cases hrest : Num.keptTotalsGo (j + 1) rest with
                | error e => rw [hrest] at h; simp at h
                | ok L1 =>
                    rw [hrest] at h
                    simp only [okBind, purePure] at h
                    cases h
                    rw [ih (j + 1) pp L1 hrest]
                    rw [show j + 1 + pp = j + (pp + 1) from by omega]
                    simp only [okBind, purePure, Except.ok.injEq]
                    rw [List.filter_cons]
                    rw [if_pos (decide_eq_true (show j ≠ j + (pp + 1) from by omega))]
          · rw [if_neg hk] at h
            rw [if_neg hk]
            rw [ih (j + 1) pp L h]
            rw [show j + 1 + pp = j + (pp + 1) from by omega]

/-- Dropping member `i` of a target removes exactly its entry from
`keptTotals`. -/
theorem keptTotals_dropMember {t : Num} {L : List (ℕ × ℚ)} (i : ℕ)
    (h : t.keptTotals = .ok L) :
    (t.modifyMember i Num.drop).keptTotals =
      .ok (L.filter (fun e => decide (e.1 ≠ i))) := by
  unfold Num.keptTotals
  rw [setMembers_modifyMember Num.drop drop_leaf_members.1 drop_leaf_members.2.1
    drop_leaf_members.2.2]
  have h2 := keptTotalsGo_modify_drop t.setMembers 0 i L h
  simpa using h2

/-- Membership of a single selector's choice in the running union. -/
theorem mem_selectLUnion_of :
    ∀ (sels : List SetSelector) (sel : SetSelector) (L : List (ℕ × ℚ)) (e : ℕ × ℚ),
      sel ∈ sels → e ∈ sel.dispatch L → e.1 ∈ selectLUnion sels L := by
  intro sels
  induction sels with
  | nil => intro sel L e h; simp at h
  | cons s0 rest ih =>
      intro sel L e hmem hdisp
      simp only [selectLUnion, List.foldr_cons, Finset.mem_union]
      rcases List.mem_cons.mp hmem with rfl | h2
      · exact Or.inl (List.mem_toFinset.mpr (List.mem_map_of_mem _ hdisp))
      · exact Or.inr (ih sel L e h2 hdisp)


/-- Removing entries outside a selector's own choice does not change
that choice (stability of Python's `sorted` makes this hold even for
the rank selectors). -/
theorem dispatch_filter_invariant (sel : SetSelector) (L : List (ℕ × ℚ)) (D : Finset ℕ)
    (h : ∀ e ∈ sel.dispatch L, e.1 ∉ D) :
    sel.dispatch (L.filter (fun e => decide (e.1 ∉ D))) = sel.dispatch L := by
  have hasc : ∀ a b : ℕ × ℚ, (fun (x y : ℕ × ℚ) => decide (x.2 < y.2)) b a = true →
      (fun (x y : ℕ × ℚ) => decide (x.2 < y.2)) a b = false := by
    intro a b hh
    simp only [decide_eq_true_eq] at hh
    exact decide_eq_false (by linarith)
  have hasct : ∀ a b c : ℕ × ℚ, (fun (x y : ℕ × ℚ) => decide (x.2 < y.2)) b a = false →
      (fun (x y : ℕ × ℚ) => decide (x.2 < y.2)) c b = false →
      (fun (x y : ℕ × ℚ) => decide (x.2 < y.2)) c a = false := by
    intro a b c h1 h2
    simp only [decide_eq_false_iff_not, not_lt] at h1 h2
    exact decide_eq_false (by simp only [not_lt]; linarith)
  have hdesc : ∀ a b : ℕ × ℚ, (fun (x y : ℕ × ℚ) => decide (y.2 < x.2)) b a = true →
      (fun (x y : ℕ × ℚ) => decide (y.2 < x.2)) a b = false := by
    intro a b hh
    simp only [decide_eq_true_eq] at hh
    exact decide_eq_false (by linarith)
  have hdesct : ∀ a b c : ℕ × ℚ, (fun (x y : ℕ × ℚ) => decide (y.2 < x.2)) b a = false →
      (fun (x y : ℕ × ℚ) => decide (y.2 < x.2)) c b = false →
      (fun (x y : ℕ × ℚ) => decide (y.2 < x.2)) c a = false := by
    intro a b c h1 h2
    simp only [decide_eq_false_iff_not, not_lt] at h1 h2
    exact decide_eq_false (by simp only [not_lt]; linarith)
  unfold SetSelector.dispatch at h ⊢
  cases hc : sel.cat with
  | none =>
      rw [hc] at h
      replace h : ∀ e ∈ sel.literalSel L, e.1 ∉ D := h
      show sel.literalSel (List.filter (fun e => decide (e.1 ∉ D)) L) = sel.literalSel L
      unfold SetSelector.literalSel at h ⊢
      rw [List.filter_comm]
      apply List.filter_eq_self.mpr
      intro e he
      exact decide_eq_true (h e he)
  | some c =>
      cases c with
      | less =>
          rw [hc] at h
          replace h : ∀ e ∈ sel.lessthan L, e.1 ∉ D := h
          show sel.lessthan (List.filter (fun e => decide (e.1 ∉ D)) L) = sel.lessthan L
          unfold SetSelector.lessthan at h ⊢
          rw [List.filter_comm]
          apply List.filter_eq_self.mpr
          intro e he
          exact decide_eq_true (h e he)
      | more =>
          rw [hc] at h
          replace h : ∀ e ∈ sel.morethan L, e.1 ∉ D := h
          show sel.morethan (List.filter (fun e => decide (e.1 ∉ D)) L) = sel.morethan L
          unfold SetSelector.morethan at h ⊢
          rw [List.filter_comm]
          apply List.filter_eq_self.mpr
          intro e he
          exact decide_eq_true (h e he)
      | low =>
          rw [hc] at h
          replace h : ∀ e ∈ sel.lowestn L, e.1 ∉ D := h
          show sel.lowestn (List.filter (fun e => decide (e.1 ∉ D)) L) = sel.lowestn L
          unfold SetSelector.lowestn at h ⊢
          rw [sortPairs_filter hasc hasct]
          apply take_filter_of_take
          intro e he
          exact decide_eq_true (h e he)
      | high =>
          rw [hc] at h
          replace h : ∀ e ∈ sel.highestn L, e.1 ∉ D := h
          show sel.highestn (List.filter (fun e => decide (e.1 ∉ D)) L) = sel.highestn L
          unfold SetSelector.highestn at h ⊢
          rw [sortPairs_filter hdesc hdesct]
          apply take_filter_of_take
          intro e he
          exact decide_eq_true (h e he)

/-- Removing entries outside the whole union selection does not change
the union selection. -/
theorem selectLUnion_filter_invariant :
    ∀ (sels : List SetSelector) (L : List (ℕ × ℚ)) (D : Finset ℕ),
      (∀ d ∈ D, d ∉ selectLUnion sels L) →
      selectLUnion sels (L.filter (fun e => decide (e.1 ∉ D))) = selectLUnion sels L := by
  intro sels
  induction sels with
  | nil => intro L D h; rfl
  | cons sel rest ih =>
      intro L D h
      have hd : ∀ e ∈ sel.dispatch L, e.1 ∉ D := by
        intro e he hmem
        exact h e.1 hmem (mem_selectLUnion_of (sel :: rest) sel L e (by simp) he)
      have hrest : ∀ d ∈ D, d ∉ selectLUnion rest L := by
        intro d hmem hun
        apply h d hmem
        simp only [selectLUnion, List.foldr_cons, Finset.mem_union]
        exact Or.inr hun
      show ((sel.dispatch (L.filter _)).map Prod.fst).toFinset ∪
          selectLUnion rest (L.filter _) = _
      rw [dispatch_filter_invariant sel L D hd, ih L D hrest]
      rfl

/-- `SetOperator.select` factors into `keptTotals` followed by the
pure union. -/
theorem selectGo_eq_selectLUnion :
    ∀ (sels : List SetSelector) (t : Num) (L : List (ℕ × ℚ)),
      t.keptTotals = .ok L →
      SetOperator.selectGo t sels = .ok (selectLUnion sels L) := by
  intro sels
  induction sels with
  | nil => intro t L h; rfl
  | cons sel rest ih =>
      intro t L h
      simp only [SetOperator.selectGo, SetSelector.select, h, okBind, purePure]
      rw [ih t L h]
      simp only [okBind, purePure]
      rfl


/-- The `keep` loop with the kept-unselected members dropped so far in
`D`: the re-evaluated selection stays equal to the one-shot selection,
so the loop drops exactly the listed indices outside it. -/
theorem keepGo_char (o : SetOperator) (L0 : List (ℕ × ℚ)) :
    ∀ (idxs : List ℕ) (t : Num) (D : Finset ℕ),
      (∀ d ∈ D, d ∉ o.selectL L0) →
      t.keptTotals = .ok (L0.filter (fun e => decide (e.1 ∉ D))) →
      SetOperator.keepGo o idxs t =
        .ok (SetOperator.dropAll
          (idxs.filter (fun i => decide (i ∉ o.selectL L0))) t) := by
  intro idxs
  induction idxs with
  | nil => intro t D hD hL; rfl
  | cons i rest ih =>
      intro t D hD hL
      have hsel : o.select t = .ok (o.selectL L0) := by
        have h1 := selectGo_eq_selectLUnion o.sels t _ hL
        rw [selectLUnion_filter_invariant o.sels L0 D hD] at h1
        exact h1
      simp only [SetOperator.keepGo, hsel, okBind]
      by_cases hi : i ∈ o.selectL L0
      · rw [if_pos hi]
        rw [List.filter_cons, if_neg (by simp [hi])]
        exact ih t D hD hL
      · rw [if_neg hi]
        rw [List.filter_cons, if_pos (by simp [hi])]
        have hD2 : ∀ d ∈ insert i D, d ∉ o.selectL L0 := by
          intro d hd
          rcases Finset.mem_insert.mp hd with rfl | hd2
          · exact hi
          · exact hD d hd2
        have hL2 := keptTotals_dropMember i hL
        have hconv : (L0.filter (fun e => decide (e.1 ∉ D))).filter
            (fun e => decide (e.1 ≠ i)) =
            L0.filter (fun e => decide (e.1 ∉ insert i D)) := by
          rw [List.filter_filter]
          apply List.filter_congr
          intro e he
          rcases Decidable.em (e.1 ∈ D) with hd | hd <;>
            rcases Decidable.em (e.1 = i) with he2 | he2 <;>
            simp [hd, he2, Finset.mem_insert]
        rw [hconv] at hL2
        exact ih (t.modifyMember i Num.drop) (insert i D) hD2 hL2

/-- With no selectors, `select` is the empty set and `keep` drops every
listed member. -/
theorem keepGo_no_sels (o : SetOperator) (hs : o.sels = []) :
    ∀ (idxs : List ℕ) (t : Num),
      SetOperator.keepGo o idxs t = .ok (SetOperator.dropAll idxs t) := by
  intro idxs
  induction idxs with
  | nil => intro t; rfl
  | cons i rest ih =>
      intro t
      simp only [SetOperator.keepGo, SetOperator.select, hs, SetOperator.selectGo, okBind]
      rw [if_neg (by simp)]
      exact ih (t.modifyMember i Num.drop)

/-- A selector's `select` fails when the target's kept totals fail. -/
theorem selector_select_error {t : Num} {e : RollErr}
    (h : t.keptTotals = .error e) (sel : SetSelector) :
    sel.select t = .error e := by
  simp [SetSelector.select, h]

/-- **C4**: the keep operator drops every currently-kept member of the
target that is not in the one-shot selection of its selectors and
nothing else (the selection re-evaluated inside the source's loop
always equals the one-shot selection, because only unselected members
get dropped); keep-highest-2 on the pool `[1, 2, 3, 4]` drops exactly
the members valued 1 and 2, leaving a total of 7. -/
theorem keep_spec :
    (∀ (o : SetOperator) (t : Num) (S0 : Finset ℕ),
      o.select t = .ok S0 →
      o.keep t = .ok (SetOperator.dropAll
        ((t.keptIdx).filter (fun i => decide (i ∉ S0))) t)) ∧
    (SetOperator.keep ⟨.k, [⟨some .high, 2⟩]⟩
        (Num.setNode true
          [Num.literal true [1] false, Num.literal true [2] false,
           Num.literal true [3] false, Num.literal true [4] false]) =
      .ok (Num.setNode true
          [Num.literal false [1] false, Num.literal false [2] false,
           Num.literal true [3] false, Num.literal true [4] false]) ∧
      (Num.setNode true
          [Num.literal false [1] false, Num.literal false [2] false,
           Num.literal true [3] false, Num.literal true [4] false]).total = .ok 7) := by
  have hmain : ∀ (o : SetOperator) (t : Num) (S0 : Finset ℕ),
      o.select t = .ok S0 →
      o.keep t = .ok (SetOperator.dropAll
        ((t.keptIdx).filter (fun i => decide (i ∉ S0))) t) := by
    intro o t S0 hsel
    cases hkt : t.keptTotals with
    | ok L0 =>
        have hS0 : S0 = o.selectL L0 := by
          have h1 : o.select t = .ok (o.selectL L0) :=
            selectGo_eq_selectLUnion o.sels t L0 hkt
          rw [hsel] at h1
          exact (Except.ok.injEq _ _).mp h1
        subst hS0
        unfold SetOperator.keep
        apply keepGo_char o L0 t.keptIdx t ∅ (by simp)
        rw [List.filter_eq_self.mpr (by intro e he; simp)]
        exact hkt
    | error e =>
        cases hsels : o.sels with
        | nil =>
            have hS0 : S0 = ∅ := by
              unfold SetOperator.select at hsel
              rw [hsels] at hsel
              exact ((Except.ok.injEq _ _).mp hsel).symm
            subst hS0
            unfold SetOperator.keep
            rw [keepGo_no_sels o hsels]
            rw [List.filter_eq_self.mpr (by intro i hi; simp)]
        | cons sel rest =>
            exfalso
            unfold SetOperator.select at hsel
            rw [hsels] at hsel
            simp only [SetOperator.selectGo, selector_select_error hkt sel, errorBind] at hsel
            exact Except.noConfusion hsel
  refine ⟨hmain, ?_, ?_⟩
  · have hsel : SetOperator.select ⟨.k, [⟨some .high, 2⟩]⟩
        (Num.setNode true
          [Num.literal true [1] false, Num.literal true [2] false,
           Num.literal true [3] false, Num.literal true [4] false]) = .ok {2, 3} := by
      simp [SetOperator.select, SetOperator.selectGo, SetSelector.select, Num.keptTotals,
        Num.keptTotalsGo, Num.setMembers, Num.kept, Num.total, Num.number,
        SetSelector.dispatch, SetSelector.highestn, sortPairs, insertPair]
      decide
    have h := hmain ⟨.k, [⟨some .high, 2⟩]⟩ _ {2, 3} hsel
    rw [h]
    rw [show (Num.setNode true
          [Num.literal true [1] false, Num.literal true [2] false,
           Num.literal true [3] false, Num.literal true [4] false]).keptIdx = [0, 1, 2, 3] from by
      simp [Num.keptIdx, Num.keptIdxGo, Num.setMembers, Num.kept]]
    rw [show List.filter (fun i => decide (i ∉ ({2, 3} : Finset ℕ))) [0, 1, 2, 3] = [0, 1]
      from by decide]
    simp [SetOperator.dropAll, Num.modifyMember, Num.drop, modify_cons_zero, modify_cons_succ]
  · simp [Num.total, Num.number, Num.kept, Num.sumKeptNumbers]
    norm_num


/-- Witness for **C4**: the keep characterization applied to the
keep-highest-2 operator on the 4-literal pool `[1, 2, 3, 4]`, whose
one-shot selection is the index set `{2, 3}`. -/
theorem keep_spec_witness :
    SetOperator.keep ⟨.k, [⟨some .high, 2⟩]⟩
        (Num.setNode true
          [Num.literal true [1] false, Num.literal true [2] false,
           Num.literal true [3] false, Num.literal true [4] false]) =
      .ok (SetOperator.dropAll
        (((Num.setNode true
          [Num.literal true [1] false, Num.literal true [2] false,
           Num.literal true [3] false, Num.literal true [4] false]).keptIdx).filter
          (fun i => decide (i ∉ ({2, 3} : Finset ℕ))))
        (Num.setNode true
          [Num.literal true [1] false, Num.literal true [2] false,
           Num.literal true [3] false, Num.literal true [4] false])) := by
  apply keep_spec.1
  simp [SetOperator.select, SetOperator.selectGo, SetSelector.select, Num.keptTotals,
    Num.keptTotalsGo, Num.setMembers, Num.kept, Num.total, Num.number,
    SetSelector.dispatch, SetSelector.highestn, sortPairs, insertPair]
  decide


end D20
